import Mathlib

/-!
Verification of the convention-compliant artifact generation and
orchestration pipeline of the gitlab-ai-assistant repository.

The TypeScript sources are shallowly embedded as executable Lean
functions over `List Char` / `String`:
* `src/services/llmService.ts` — the branch-name and commit-message
  normalization pipelines (`generateBranchNameWithRules`,
  `generateCommitMessageWithRules`) and the target-branch selection
  (`selectTargetBranch`, `fallbackTargetBranch`);
* `src/utils/gitCheckParser.ts` — `PROTECTED_BRANCHES`,
  `isProtectedBranch`, `parseGitCheckRules` and its extraction
  strategies, `validateBranchName`, `validateCommitMessage`;
* `src/commands/fullWorkflow.ts` — `fullWorkflowCommand`, modelled as a
  function from an environment (the results of user interactions and
  backend calls) to the list of side-effecting operations it performs,
  in program order.

JavaScript regular expressions used by the sources are embedded as
deterministic scanners that reproduce the engine's leftmost-match,
greedy/lazy and backtracking behaviour for the concrete patterns in the
code (each scanner is annotated with the regex it implements).
JavaScript string semantics are modelled for ASCII data:
`toLowerCase`/`toUpperCase` are mapped characterwise, `trim` and `\s`
use the ASCII whitespace characters, and `.` in a regex matches any
character except a line terminator.
-/

namespace GitlabAI

/-- ASCII lowercase letter. -/
def isaz (c : Char) : Bool := 'a' ≤ c && c ≤ 'z'

/-- ASCII uppercase letter. -/
def isAZ (c : Char) : Bool := 'A' ≤ c && c ≤ 'Z'

/-- ASCII letter; what the classes `[a-z]` and `[A-Z]` match under the
JavaScript `i` flag. -/
def isLetterB (c : Char) : Bool := isaz c || isAZ c

/-- ASCII digit, the class `[0-9]`. -/
def isDigitB (c : Char) : Bool := '0' ≤ c && c ≤ '9'

/-- The class `[a-z0-9-]` (case-sensitive). -/
def isLowerAl (c : Char) : Bool := isaz c || isDigitB c || c = '-'

/-- ASCII model of the JavaScript `\s` class / the characters removed
by `String.prototype.trim`. -/
def jsWS (c : Char) : Bool :=
  c = ' ' || c = '\t' || c = '\n' || c = '\r' || c = '\x0b' || c = '\x0c'

/-- Line terminators, which the regex `.` does not match. -/
def isNL (c : Char) : Bool := c = '\n' || c = '\r'

/-- A quote character, the class `["']`. -/
def isQuote (c : Char) : Bool := c = '\x22' || c = '\x27'

/-- The backtick character. -/
def tickC : Char := '\x60'

/-- JavaScript `String.prototype.trim` (ASCII model): drop leading and
trailing whitespace. -/
def jsTrim (s : List Char) : List Char :=
  ((s.dropWhile jsWS).reverse.dropWhile jsWS).reverse

/-- Case-insensitive prefix stripping: if `s` starts with `p` up to
ASCII case, return the rest. -/
def stripPreCI : List Char → List Char → Option (List Char)
  | [], s => some s
  | _ :: _, [] => none
  | p :: ps, c :: cs => if p.toLower = c.toLower then stripPreCI ps cs else none

/-- Case-sensitive prefix stripping. -/
def stripPreEx (p s : List Char) : Option (List Char) :=
  if p.isPrefixOf s then some (s.drop p.length) else none

/-- `String.prototype.includes` (case-sensitive substring test). -/
def containsSub (pat : List Char) : List Char → Bool
  | [] => pat.isEmpty
  | c :: cs => pat.isPrefixOf (c :: cs) || containsSub pat cs

/-- Drop everything up to and including the earliest case-insensitive
occurrence of `pat`; `none` when there is none.  This is the lazy
search performed by `[\s\S]*?pat`. -/
def dropAfterCI (pat : List Char) : List Char → Option (List Char)
  | [] => none
  | c :: cs =>
    match stripPreCI pat (c :: cs) with
    | some r => some r
    | none => dropAfterCI pat cs

/-- Drop everything up to and including the earliest exact occurrence
of `pat`. -/
def dropAfterEx (pat : List Char) : List Char → Option (List Char)
  | [] => none
  | c :: cs =>
    if pat.isPrefixOf (c :: cs) then some ((c :: cs).drop pat.length)
    else dropAfterEx pat cs

/-- One step of `replace(/<think>[\s\S]*?<\/think>/gi, '')`
(fuel-indexed; the wrapper passes the string length, which bounds the
number of steps). -/
def removeThinkF : Nat → List Char → List Char
  | 0, s => s
  | _ + 1, [] => []
  | n + 1, c :: cs =>
    match stripPreCI "<think>".data (c :: cs) with
    | some r =>
      match dropAfterCI "</think>".data r with
      | some r2 => removeThinkF n r2
      | none => c :: removeThinkF n cs
    | none => c :: removeThinkF n cs

/-- `replace(/<think>[\s\S]*?<\/think>/gi, '')`. -/
def removeThink (s : List Char) : List Char := removeThinkF s.length s

/-- Parse `<[^>]+>` at the head of the input, returning the rest. -/
def parseOpenTag : List Char → Option (List Char)
  | '<' :: cs =>
    let run := cs.takeWhile (fun c => !(c = '>'))
    if run.isEmpty then none
    else
      match cs.drop run.length with
      | '>' :: r => some r
      | _ => none
  | _ => none

/-- Parse `<\/[^>]+>` at the head of the input, returning the rest. -/
def parseCloseTag : List Char → Option (List Char)
  | '<' :: '/' :: cs =>
    let run := cs.takeWhile (fun c => !(c = '>'))
    if run.isEmpty then none
    else
      match cs.drop run.length with
      | '>' :: r => some r
      | _ => none
  | _ => none

/-- Lazy search for the earliest closing tag `<\/[^>]+>`. -/
def dropAfterCloseTag : List Char → Option (List Char)
  | [] => none
  | c :: cs =>
    match parseCloseTag (c :: cs) with
    | some r => some r
    | none => dropAfterCloseTag cs

/-- `replace(/<[^>]+>[\s\S]*?<\/[^>]+>/gi, '')` (fuel-indexed). -/
def removeTagsF : Nat → List Char → List Char
  | 0, s => s
  | _ + 1, [] => []
  | n + 1, c :: cs =>
    match parseOpenTag (c :: cs) with
    | some afterOpen =>
      match dropAfterCloseTag afterOpen with
      | some r2 => removeTagsF n r2
      | none => c :: removeTagsF n cs
    | none => c :: removeTagsF n cs

/-- `replace(/<[^>]+>[\s\S]*?<\/[^>]+>/gi, '')`. -/
def removeTags (s : List Char) : List Char := removeTagsF s.length s

/-- The three-backtick fence marker. -/
def fenceL : List Char := [tickC, tickC, tickC]

/-- `replace(/```[\s\S]*?```/g, '')` (fuel-indexed). -/
def removeFencesF : Nat → List Char → List Char
  | 0, s => s
  | _ + 1, [] => []
  | n + 1, c :: cs =>
    if fenceL.isPrefixOf (c :: cs) then
      match dropAfterEx fenceL ((c :: cs).drop 3) with
      | some r2 => removeFencesF n r2
      | none => c :: removeFencesF n cs
    else c :: removeFencesF n cs

/-- `replace(/```[\s\S]*?```/g, '')`. -/
def removeFences (s : List Char) : List Char := removeFencesF s.length s

/-- `replace(/`([^`]+)`/g, '$1')`: unwrap inline code (fuel-indexed). -/
def unwrapInlineF : Nat → List Char → List Char
  | 0, s => s
  | _ + 1, [] => []
  | n + 1, c :: cs =>
    if c = tickC then
      if (cs.takeWhile (fun x => !(x = tickC))).isEmpty then c :: unwrapInlineF n cs
      else
        match cs.drop (cs.takeWhile (fun x => !(x = tickC))).length with
        | d :: r =>
          if d = tickC then cs.takeWhile (fun x => !(x = tickC)) ++ unwrapInlineF n r
          else c :: unwrapInlineF n cs
        | [] => c :: unwrapInlineF n cs
    else c :: unwrapInlineF n cs

/-- `replace(/`([^`]+)`/g, '$1')`. -/
def unwrapInline (s : List Char) : List Char := unwrapInlineF s.length s

/-- Remove a leading character satisfying `p` (at most one). -/
def stripLead (p : Char → Bool) : List Char → List Char
  | [] => []
  | c :: cs => if p c then cs else c :: cs

/-- Remove a trailing character satisfying `p` (at most one). -/
def stripTrail (p : Char → Bool) (s : List Char) : List Char :=
  match s.getLast? with
  | some c => if p c then s.dropLast else s
  | none => s

/-- `replace(/^["']|["']$/g, '')`: strip one leading and one trailing
quote.  (When the string is a single quote character, the leading
alternative consumes it and nothing is left for the trailing one,
matching the JavaScript global-replace behaviour.) -/
def stripEdgeQuotes (s : List Char) : List Char :=
  stripTrail isQuote (stripLead isQuote s)

/-- `replace(/^-|-$/g, '')`. -/
def stripEdgeHyphens (s : List Char) : List Char :=
  stripTrail (fun c => c = '-') (stripLead (fun c => c = '-') s)

/-- `replace(/\s+/g, '-')`: the flag records whether we are inside a
whitespace run already replaced by a hyphen. -/
def wsHy : Bool → List Char → List Char
  | _, [] => []
  | inRun, c :: cs =>
    if jsWS c then
      if inRun then wsHy true cs else '-' :: wsHy true cs
    else c :: wsHy false cs

/-- `replace(/\s+/g, '-')`. -/
def wsToHyphen (s : List Char) : List Char := wsHy false s

/-- `replace(hyphen-run, '-')` with the global regex matching `-+`:
collapse hyphen runs. -/
def colHy : Bool → List Char → List Char
  | _, [] => []
  | inRun, c :: cs =>
    if c = '-' then
      if inRun then colHy true cs else '-' :: colHy true cs
    else c :: colHy false cs

/-- Collapse hyphen runs to a single hyphen (global replace). -/
def collapseHyphens (s : List Char) : List Char := colHy false s

/-- `split(sep)` on a single character, keeping empty pieces. -/
def splitOnC (sep : Char) : List Char → List (List Char)
  | [] => [[]]
  | c :: cs =>
    match splitOnC sep cs with
    | [] => if c = sep then [[], []] else [[c]]
    | h :: t => if c = sep then [] :: h :: t else (c :: h) :: t

/-- Characterwise `toLowerCase` (ASCII model). -/
def lowerL (s : List Char) : List Char := s.map Char.toLower

/-- Characterwise `toUpperCase` (ASCII model). -/
def upperL (s : List Char) : List Char := s.map Char.toUpper

/-- `replace(/[^a-z0-9-]/g, '-')`. -/
def sanitizeDesc (s : List Char) : List Char :=
  s.map (fun c => if isLowerAl c then c else '-')

/-- The test `/^[a-z]+\/[A-Z]+-[0-9]+-[a-z0-9-]+$/i` used to pick the
answer line in `generateBranchNameWithRules`.  Under the `i` flag every
letter class matches any ASCII letter.  All quantifiers here are
forced: each greedy run must be maximal because shrinking it leaves a
character that cannot match the following literal. -/
def strictBranchTest (s : List Char) : Bool :=
  let t := s.takeWhile isLetterB
  if t.isEmpty then false
  else
    match s.drop t.length with
    | '/' :: r1 =>
      let L := r1.takeWhile isLetterB
      if L.isEmpty then false
      else
        match r1.drop L.length with
        | '-' :: r2 =>
          let D := r2.takeWhile isDigitB
          if D.isEmpty then false
          else
            match r2.drop D.length with
            | '-' :: r3 =>
              !r3.isEmpty && r3.all (fun c => isLetterB c || isDigitB c || c = '-')
            | _ => false
        | _ => false
    | _ => false

/-- The match `/^([a-z]+)\/([A-Z]+-[0-9]+)-(.+)$/i` of
`generateBranchNameWithRules`, returning the three capture groups.
`.+` cannot cross a line terminator and `$` is the end of the string
(no `m` flag). -/
def mainBranchMatch (s : List Char) :
    Option (List Char × List Char × List Char) :=
  let t := s.takeWhile isLetterB
  if t.isEmpty then none
  else
    match s.drop t.length with
    | '/' :: r1 =>
      let L := r1.takeWhile isLetterB
      if L.isEmpty then none
      else
        match r1.drop L.length with
        | '-' :: r2 =>
          let D := r2.takeWhile isDigitB
          if D.isEmpty then none
          else
            match r2.drop D.length with
            | '-' :: r3 =>
              if !r3.isEmpty && r3.all (fun c => !isNL c) then
                some (t, L ++ '-' :: D, r3)
              else none
            | _ => none
        | _ => none
    | _ => none

/-- The search `match(/([A-Z]+-[0-9]+)/i)` of
`generateBranchNameWithRules`: leftmost position where a maximal letter
run is followed by a hyphen and at least one digit; the match is the
run, the hyphen and the maximal digit run. -/
def ticketSearchCI : List Char → Option (List Char)
  | [] => none
  | c :: cs =>
    if isLetterB c then
      let L := cs.takeWhile isLetterB
      match cs.drop L.length with
      | '-' :: r2 =>
        let D := r2.takeWhile isDigitB
        if D.isEmpty then ticketSearchCI cs else some (c :: (L ++ '-' :: D))
      | _ => ticketSearchCI cs
    else ticketSearchCI cs

/-- `replace(pat, '')` with a string argument: remove the first exact
occurrence of `pat`. -/
def replaceFirst (pat : List Char) : List Char → List Char
  | [] => []
  | c :: cs =>
    if pat.isPrefixOf (c :: cs) then (c :: cs).drop pat.length
    else c :: replaceFirst pat cs

/-- The response cleanup of `generateBranchNameWithRules`
(llmService.ts 260–273): trim, strip think blocks, strip generic tag
pairs, strip fenced code, unwrap inline code, strip one layer of
quotes. -/
def cleanupBranch (s : List Char) : List Char :=
  stripEdgeQuotes (unwrapInline (removeFences (removeTags (removeThink (jsTrim s)))))

/-- The shaping part of `generateBranchNameWithRules`
(llmService.ts 275–315), applied to the cleaned response: pick the
answer line, trim, spaces to hyphens, case-normalize via the main
match or the slash-split fallback, collapse hyphen runs and drop a
trailing hyphen. -/
def pickLine (b5 : List Char) : List Char :=
  if ((splitOnC '\n' (jsTrim b5)).filter (fun l => !(jsTrim l).isEmpty)).isEmpty then b5
  else
    match ((splitOnC '\n' (jsTrim b5)).filter (fun l => !(jsTrim l).isEmpty)).find?
        (fun l => strictBranchTest (jsTrim l)) with
    | some l => l
    | none => ((splitOnC '\n' (jsTrim b5)).filter (fun l => !(jsTrim l).isEmpty)).getLastD []

/-- The case-normalization step (llmService.ts 286–310): the main
match or the slash-split fallback. -/
def caseNormalize (b7 : List Char) : List Char :=
  match mainBranchMatch b7 with
  | some (t, tk, d) => lowerL t ++ '/' :: (upperL tk ++ '-' :: sanitizeDesc (lowerL d))
  | none =>
    match splitOnC '/' b7 with
    | [p0, p1] =>
      (match ticketSearchCI p1 with
       | some m =>
         lowerL p0 ++ '/' ::
           (upperL m ++ '-' ::
             sanitizeDesc (lowerL (stripEdgeHyphens (replaceFirst m p1))))
       | none => lowerL p0 ++ '/' :: sanitizeDesc (lowerL p1))
    | _ => b7

def shapeBranch (b5 : List Char) : List Char :=
  stripTrail (fun c => c = '-')
    (collapseHyphens (caseNormalize (wsToHyphen (jsTrim (pickLine b5)))))

/-- The branch-name normalization of
`LLMService.generateBranchNameWithRules` (llmService.ts 248–316),
applied to the raw LLM response text. -/
def normBranchL (s : List Char) : List Char := shapeBranch (cleanupBranch s)

/-- String-level wrapper for `normBranchL`. -/
def normalizeBranchName (s : String) : String := ⟨normBranchL s.data⟩

/-- The conventional types of the commit post-processing regexes, in
alternation order. -/
def commitTypes : List (List Char) :=
  ["feat", "fix", "chore", "docs", "style", "refactor", "test", "ci", "build",
   "perf"].map String.data

/-- The `:\s*(.+)$` suffix of the commit regexes: greedy whitespace,
then a non-empty remainder free of line terminators; when everything
after the colon is whitespace, backtracking yields the last whitespace
character as the description provided it is not a line terminator. -/
def descParse (r : List Char) : Option (List Char) :=
  if !(r.drop (r.takeWhile jsWS).length).isEmpty then
    if (r.drop (r.takeWhile jsWS).length).all (fun c => !isNL c) then
      some (r.drop (r.takeWhile jsWS).length)
    else none
  else
    match (r.takeWhile jsWS).getLast? with
    | some c => if isNL c then none else some [c]
    | none => none

/-- After a matched type: `(\([^)]*\))?:\s*(.+)$`, returning the
optional scope content and the description. -/
def parseAfterType : List Char → Option (Option (List Char) × List Char)
  | '(' :: r =>
    (match r.drop (r.takeWhile (fun c => !(c = ')'))).length with
     | ')' :: ':' :: r3 =>
       (descParse r3).map (fun d => (some (r.takeWhile (fun c => !(c = ')'))), d))
     | _ => none)
  | ':' :: r => (descParse r).map (fun d => (none, d))
  | _ => none

/-- Try the type alternatives in order; on a prefix match whose
remainder fails to parse, continue with the next alternative (the
types are mutually non-prefix, so at most one can match at a given
position).  Returns the matched slice (original case), the optional
scope and the description. -/
def tryTypes : List (List Char) → List Char →
    Option (List Char × Option (List Char) × List Char)
  | [], _ => none
  | t :: ts, s =>
    match stripPreCI t s with
    | some rest =>
      match parseAfterType rest with
      | some (sc, d) => some (s.take t.length, sc, d)
      | none => tryTypes ts s
    | none => tryTypes ts s

/-- The match
`/^(feat|fix|chore|docs|style|refactor|test|ci|build|perf)(\([^)]*\))?:\s*(.+)$/i`
of `generateCommitMessageWithRules`. -/
def conventionalMatchC (s : List Char) :
    Option (List Char × Option (List Char) × List Char) :=
  tryTypes commitTypes s

/-- Try the type alternatives for the scopeless match. -/
def simpleTry : List (List Char) → List Char → Option (List Char × List Char)
  | [], _ => none
  | t :: ts, s =>
    match stripPreCI t s with
    | some (':' :: r) =>
      (match descParse r with
       | some d => some (s.take t.length, d)
       | none => simpleTry ts s)
    | _ => simpleTry ts s

/-- The match
`/^(feat|fix|chore|docs|style|refactor|test|ci|build|perf):\s*(.+)$/i`. -/
def simpleMatchC (s : List Char) : Option (List Char × List Char) :=
  simpleTry commitTypes s

/-- `^L+-D+$` where `letterOK` gives the letter class: the shape tests
`/^[a-z]+-[0-9]+$/i` (with `isLetterB`) and `/^[A-Z]+-[0-9]+$/` (with
`isAZ`) applied to a scope content. -/
def ticketShape (letterOK : Char → Bool) (s : List Char) : Bool :=
  let L := s.takeWhile letterOK
  if L.isEmpty then false
  else
    match s.drop L.length with
    | '-' :: r =>
      let D := r.takeWhile isDigitB
      !D.isEmpty && (r.drop D.length).isEmpty
    | _ => false

/-- The response cleanup shared by the commit-message pipeline
(llmService.ts 170–186): trim, strip think blocks, strip tag pairs,
strip fences, unwrap inline code, strip one layer of quotes, trim. -/
def cleanupMsg (s : List Char) : List Char :=
  jsTrim (stripEdgeQuotes (unwrapInline (removeFences (removeTags (removeThink (jsTrim s))))))

/-- `` `${type}(${upperTicket}): ${description}` ``. -/
def rebuildMsg (ty up d : List Char) : List Char :=
  ty ++ '(' :: (up ++ ')' :: ':' :: ' ' :: d)

/-- The commit-message normalization of
`LLMService.generateCommitMessageWithRules` (llmService.ts 159–222):
cleanup, then — when a non-empty ticket is provided — scope
re-derivation on the conventional shape. -/
def normCommitL (s : List Char) (ticket : Option (List Char)) : List Char :=
  match ticket with
  | none => cleanupMsg s
  | some tk =>
    if tk.isEmpty then cleanupMsg s
    else
      match conventionalMatchC (cleanupMsg s) with
      | some (tyRaw, some sc, d) =>
        if ticketShape isLetterB sc then rebuildMsg (lowerL tyRaw) (upperL tk) d
        else if !(ticketShape isAZ sc) then rebuildMsg (lowerL tyRaw) (upperL tk) d
        else cleanupMsg s
      | some (tyRaw, none, d) => rebuildMsg (lowerL tyRaw) (upperL tk) d
      | none =>
        match simpleMatchC (cleanupMsg s) with
        | some (tyRaw, d) => rebuildMsg (lowerL tyRaw) (upperL tk) d
        | none => cleanupMsg s

/-- String-level wrapper for `normCommitL`. -/
def normalizeCommitMessage (s : String) (ticket : Option String) : String :=
  ⟨normCommitL s.data (ticket.map String.data)⟩

/-! ## gitCheckParser.ts -/

/-- `PROTECTED_BRANCHES` (gitCheckParser.ts 16). -/
def PROTECTED_BRANCHES : List String :=
  ["main", "master", "dev", "develop", "development"]

/-- `isProtectedBranch` (gitCheckParser.ts 18–20):
`PROTECTED_BRANCHES.includes(branchName.toLowerCase())`. -/
def isProtectedBranch (branchName : String) : Bool :=
  PROTECTED_BRANCHES.contains ⟨lowerL branchName.data⟩

/-- Try `pattern|regex|match` case-insensitively at the head of the
input (the alternatives start with distinct letters, so at most one
can match). -/
def kwAt (s : List Char) : Option (List Char) :=
  match stripPreCI "pattern".data s with
  | some r => some r
  | none =>
    match stripPreCI "regex".data s with
    | some r => some r
    | none => stripPreCI "match".data s

/-- Try `['"]([^'"]+)['"]` at the head of the input: a quote, a
non-empty maximal run free of quote characters, a quote.  Returns the
captured run. -/
def quoteCapAt : List Char → Option (List Char)
  | [] => none
  | c :: cs =>
    if isQuote c then
      let run := cs.takeWhile (fun x => !isQuote x)
      if run.isEmpty then none
      else
        match cs.drop run.length with
        | q :: _ => if isQuote q then some run else none
        | [] => none
    else none

/-- Lazy gap `.*?` (which cannot cross a line terminator) followed by
the quoted capture. -/
def gapToQuoteCap : List Char → Option (List Char)
  | [] => none
  | c :: cs =>
    match quoteCapAt (c :: cs) with
    | some cap => some cap
    | none => if isNL c then none else gapToQuoteCap cs

/-- Lazy gap to a keyword (`pattern|regex|match`), then a lazy gap to
the quoted capture; when the tail fails, the keyword position is
consumed as a gap character. -/
def gapToKwCap : List Char → Option (List Char)
  | [] => none
  | c :: cs =>
    match kwAt (c :: cs) with
    | some rest =>
      match gapToQuoteCap rest with
      | some cap => some cap
      | none => if isNL c then none else gapToKwCap cs
    | none => if isNL c then none else gapToKwCap cs

/-- The extraction `/lead.*?(?:pattern|regex|match).*?['"]([^'"]+)['"]/i`
with `lead` being `branch` (gitCheckParser.ts 74) or `commit`
(gitCheckParser.ts 136): leftmost occurrence of `lead` from which the
rest succeeds. -/
def keyQuoteMatch (lead : List Char) : List Char → Option (List Char)
  | [] => none
  | c :: cs =>
    match stripPreCI lead (c :: cs) with
    | some rest =>
      match gapToKwCap rest with
      | some cap => some cap
      | none => keyQuoteMatch lead cs
    | none => keyQuoteMatch lead cs

/-- Try `\/([^/]+)\/` at the head of the input. -/
def slashCapAt : List Char → Option (List Char)
  | '/' :: cs =>
    let run := cs.takeWhile (fun x => !(x = '/'))
    if run.isEmpty then none
    else
      match cs.drop run.length with
      | '/' :: _ => some run
      | _ => none
  | _ => none

/-- Lazy gap to the slash-delimited capture. -/
def gapToSlashCap : List Char → Option (List Char)
  | [] => none
  | c :: cs =>
    match slashCapAt (c :: cs) with
    | some cap => some cap
    | none => if isNL c then none else gapToSlashCap cs

/-- Lazy gap to `=~`, then a lazy gap to the slash-delimited capture. -/
def gapToTilde : List Char → Option (List Char)
  | [] => none
  | c :: cs =>
    match stripPreCI "=~".data (c :: cs) with
    | some rest =>
      match gapToSlashCap rest with
      | some cap => some cap
      | none => if isNL c then none else gapToTilde cs
    | none => if isNL c then none else gapToTilde cs

/-- `/branch.*?=~.*?\/([^/]+)\//i` (gitCheckParser.ts 85). -/
def branchTildeMatch : List Char → Option (List Char)
  | [] => none
  | c :: cs =>
    match stripPreCI "branch".data (c :: cs) with
    | some rest =>
      match gapToTilde rest with
      | some cap => some cap
      | none => branchTildeMatch cs
    | none => branchTildeMatch cs

/-- Lazy gap to `message`, then the `=~` tail. -/
def gapToMessageTilde : List Char → Option (List Char)
  | [] => none
  | c :: cs =>
    match stripPreCI "message".data (c :: cs) with
    | some rest =>
      match gapToTilde rest with
      | some cap => some cap
      | none => if isNL c then none else gapToMessageTilde cs
    | none => if isNL c then none else gapToMessageTilde cs

/-- `/commit.*?message.*?=~.*?\/([^/]+)\//i` (gitCheckParser.ts 149). -/
def commitTildeMatch : List Char → Option (List Char)
  | [] => none
  | c :: cs =>
    match stripPreCI "commit".data (c :: cs) with
    | some rest =>
      match gapToMessageTilde rest with
      | some cap => some cap
      | none => commitTildeMatch cs
    | none => commitTildeMatch cs

/-- Try `grep\s+-[a-zA-Z]*E[a-zA-Z]*\s+["']([^"']+)["']` at the head of
the input (case-sensitive).  The flag run after `-` must contain an
`E`; the greedy whitespace and letter runs are forced to be maximal by
the following literals. -/
def grepAt (s : List Char) : Option (List Char) :=
  match stripPreEx "grep".data s with
  | some r0 =>
    let w1 := r0.takeWhile jsWS
    if w1.isEmpty then none
    else
      match r0.drop w1.length with
      | '-' :: r1 =>
        let flags := r1.takeWhile isLetterB
        if flags.contains 'E' then
          let r2 := r1.drop flags.length
          let w2 := r2.takeWhile jsWS
          if w2.isEmpty then none
          else quoteCapAt (r2.drop w2.length)
        else none
      | _ => none
  | none => none

/-- `/grep\s+-[a-zA-Z]*E[a-zA-Z]*\s+["']([^"']+)["']/`
(gitCheckParser.ts 124). -/
def grepMatch : List Char → Option (List Char)
  | [] => none
  | c :: cs =>
    match grepAt (c :: cs) with
    | some cap => some cap
    | none => grepMatch cs

/-- Backtracking candidates for an optional `[_-]?` (greedy: with the
separator first). -/
def optDash (r : List Char) : List (List Char) :=
  match r with
  | c :: cs => if c = '_' || c = '-' then [cs, c :: cs] else [c :: cs]
  | [] => [[]]

/-- Backtracking candidates for an optional trailing `s?`
(case-insensitive, greedy). -/
def optS (r : List Char) : List (List Char) :=
  match r with
  | c :: cs => if c.toLower = 's' then [cs, c :: cs] else [c :: cs]
  | [] => [[]]

/-- Rests after `branch[_-]?types?` at the head of the input, in
backtracking order. -/
def afterBranchTypesKw (s : List Char) : List (List Char) :=
  ((stripPreCI "branch".data s).toList.flatMap optDash).flatMap
    (fun r1 => ((stripPreCI "type".data r1).toList.flatMap optS))

/-- Rests after `allowed[_-]?branches?` at the head of the input, in
backtracking order (`branches?` matches `branche` with an optional
`s`). -/
def afterAllowedKw (s : List Char) : List (List Char) :=
  ((stripPreCI "allowed".data s).toList.flatMap optDash).flatMap
    (fun r1 => ((stripPreCI "branche".data r1).toList.flatMap optS))

/-- The character class written `[\\w,\\s|]` in the source regex
literal: inside a class, `\\` is an escaped backslash, so the class is
the five literal characters backslash, `w`, comma, `s`, pipe. -/
def inTypesClass (c : Char) : Bool :=
  c = '\\' || c = 'w' || c = ',' || c = 's' || c = '|'

/-- Try `[['"]([\\w,\\s|]+)['"]` at the head of the input: an opener
from the class `['"]` extended with `[`, the captured run, a closing
quote. -/
def typesCapAt : List Char → Option (List Char)
  | [] => none
  | c :: cs =>
    if c = '[' || isQuote c then
      let run := cs.takeWhile inTypesClass
      if run.isEmpty then none
      else
        match cs.drop run.length with
        | q :: _ => if isQuote q then some run else none
        | [] => none
    else none

/-- Lazy gap to the types capture. -/
def gapToTypesCap : List Char → Option (List Char)
  | [] => none
  | c :: cs =>
    match typesCapAt (c :: cs) with
    | some cap => some cap
    | none => if isNL c then none else gapToTypesCap cs

/-- First successful result in a list of attempts. -/
def firstSome {α : Type} : List (Option α) → Option α
  | [] => none
  | some a :: _ => some a
  | none :: rest => firstSome rest

/-- `/(?:branch[_-]?types?|allowed[_-]?branches?).*?[['"]([\\w,\\s|]+)['"]/i`
(gitCheckParser.ts 96). -/
def typesKwMatch : List Char → Option (List Char)
  | [] => none
  | c :: cs =>
    match firstSome
        ((afterBranchTypesKw (c :: cs) ++ afterAllowedKw (c :: cs)).map
          gapToTypesCap) with
    | some cap => some cap
    | none => typesKwMatch cs

/-- JavaScript `split` on a regex matching non-empty runs of the given
separator class; `inSep` records that the current piece was already
flushed at the start of the run. -/
def splitRunsA (p : Char → Bool) : Bool → List Char → List Char → List (List Char)
  | _, cur, [] => [cur.reverse]
  | inSep, cur, c :: cs =>
    if p c then
      if inSep then splitRunsA p true cur cs
      else cur.reverse :: splitRunsA p true [] cs
    else splitRunsA p false (c :: cur) cs

/-- `split(sep-class runs)`. -/
def splitRuns (p : Char → Bool) (s : List Char) : List (List Char) :=
  splitRunsA p false [] s

/-- `typesMatch[1].split(sep).filter(t => t.trim()).map(t => t.trim())`
where the split separator is a non-empty run of `[,|\s]`
(gitCheckParser.ts 98). -/
def typesFrom (cap : List Char) : List (List Char) :=
  ((splitRuns (fun c => c = ',' || c = '|' || jsWS c) cap).filter
    (fun t => !(jsTrim t).isEmpty)).map jsTrim

/-- The alternatives of
`/(feature|bugfix|hotfix|fix|feat|chore|docs|refactor)/gi`, in
alternation order. -/
def convKws : List (List Char) :=
  ["feature", "bugfix", "hotfix", "fix", "feat", "chore", "docs",
   "refactor"].map String.data

/-- Try the conventional keywords at the head; returns the (lowercase)
keyword and the rest. -/
def kwTryAt (kws : List (List Char)) (s : List Char) :
    Option (List Char × List Char) :=
  match kws with
  | [] => none
  | k :: ks =>
    match stripPreCI k s with
    | some rest => some (k, rest)
    | none => kwTryAt ks s

/-- All matches of the conventional-keyword regex, lowercased, in
order (global scan, advancing past each match); fuel-indexed. -/
def findAllKwsF : Nat → List Char → List (List Char)
  | 0, _ => []
  | _ + 1, [] => []
  | n + 1, c :: cs =>
    match kwTryAt convKws (c :: cs) with
    | some (k, rest) => k :: findAllKwsF n rest
    | none => findAllKwsF n cs

/-- `[...new Set(matches)]`: deduplicate keeping first occurrences. -/
def dedupA : List (List Char) → List (List Char) → List (List Char)
  | _, [] => []
  | seen, x :: xs =>
    if seen.contains x then dedupA seen xs else x :: dedupA (x :: seen) xs

/-- The ticket heuristic used at gitCheckParser.ts 48 and 58:
`/\[A-Z\].*\[0-9\]/.test(pattern)` means a literal `[A-Z]` followed,
without crossing a line terminator, by a literal `[0-9]`. -/
def scanNoNLfor (pat : List Char) : List Char → Bool
  | [] => false
  | c :: cs => pat.isPrefixOf (c :: cs) || (!isNL c && scanNoNLfor pat cs)

/-- Search for the `[A-Z]`-then-`[0-9]` shape anywhere in the string. -/
def hasAZthenDigitClass : List Char → Bool
  | [] => false
  | c :: cs =>
    (match stripPreEx "[A-Z]".data (c :: cs) with
     | some r => scanNoNLfor "[0-9]".data r
     | none => false) || hasAZthenDigitClass cs

/-- `/\[A-Z\].*\[0-9\]/.test(p) || p.includes('ticket')`. -/
def ticketHeuristic (p : List Char) : Bool :=
  hasAZthenDigitClass p || containsSub "ticket".data p

/-- The default branch pattern applied when a git-check stage exists
but no pattern and no types were extracted (gitCheckParser.ts 112). -/
def defaultBranchPattern : List Char :=
  "^(feature|feat|fix|bugfix|hotfix|chore|docs|refactor|test)/[a-z0-9-]+$".data

/-- The default branch types (gitCheckParser.ts 111). -/
def defaultBranchTypes : List (List Char) :=
  ["feature", "feat", "fix", "bugfix", "hotfix", "chore", "docs",
   "refactor", "test"].map String.data

/-- The conventional-commits fallback pattern (gitCheckParser.ts 163). -/
def defaultCommitPattern : List Char :=
  "^(feat|fix|docs|style|refactor|perf|test|chore|ci|build)(\\([a-z-]+\\))?!?:\\s.+$".data

/-- Result record of `extractBranchNamePatterns`.  A compiled `RegExp`
is modelled abstractly as a matcher `String → Bool`; the `compile`
parameters of the functions below model `new RegExp(p)` and
`new RegExp(p, 'i')`, returning `none` when the constructor throws. -/
structure BranchPatterns where
  pattern : Option (List Char) := none
  regex : Option (String → Bool) := none
  types : Option (List (List Char)) := none

/-- Result record of `extractCommitMessagePatterns`. -/
structure CommitPatterns where
  pattern : Option (List Char) := none
  regex : Option (String → Bool) := none

/-- Branch strategy 1 (gitCheckParser.ts 72–78): quoted pattern after a
`branch` keyword. -/
def branchStep1 (compile : List Char → Option (String → Bool))
    (content : List Char) : BranchPatterns :=
  match keyQuoteMatch "branch".data content with
  | some cap => { pattern := some cap, regex := compile cap }
  | none => {}

/-- Branch strategy 2 (gitCheckParser.ts 80–87): `=~` comparison, used
only when strategy 1 found nothing. -/
def branchStep2 (compile : List Char → Option (String → Bool))
    (content : List Char) (r : BranchPatterns) : BranchPatterns :=
  match branchTildeMatch content with
  | some cap =>
    if r.pattern.isNone then { r with pattern := some cap, regex := compile cap }
    else r
  | none => r

/-- Branch strategy 3 (gitCheckParser.ts 89–95): explicit allowed-types
list. -/
def branchStep3 (content : List Char) (r : BranchPatterns) : BranchPatterns :=
  match typesKwMatch content with
  | some cap => { r with types := some (typesFrom cap) }
  | none => r

/-- Branch strategy 4 (gitCheckParser.ts 97–105): keyword scan for
common branch types when no explicit list was found. -/
def branchStep4 (content : List Char) (r : BranchPatterns) : BranchPatterns :=
  match r.types with
  | some _ => r
  | none =>
    if (dedupA [] (findAllKwsF content.length content)).isEmpty then r
    else { r with types := some (dedupA [] (findAllKwsF content.length content)) }

/-- The conventional default (gitCheckParser.ts 107–115): only when
neither a pattern nor types were found. -/
def branchStep5 (compileI : List Char → Option (String → Bool))
    (content : List Char) (r : BranchPatterns) : BranchPatterns :=
  if r.pattern.isNone && r.types.isNone then
    if containsSub "conventional".data content || containsSub "feat".data content
        || containsSub "fix".data content then
      { r with types := some defaultBranchTypes,
               pattern := some defaultBranchPattern,
               regex := compileI defaultBranchPattern }
    else r
  else r

/-- `extractBranchNamePatterns` (gitCheckParser.ts 69–118): the four
strategies in source order, then the conventional default when neither
a pattern nor types were found. -/
def extractBranchNamePatterns
    (compile compileI : List Char → Option (String → Bool))
    (content : List Char) : BranchPatterns :=
  branchStep5 compileI content
    (branchStep4 content
      (branchStep3 content
        (branchStep2 compile content (branchStep1 compile content))))

/-- Commit strategy 1 (gitCheckParser.ts 123–129): grep extended-regex
argument. -/
def commitStep1 (compile : List Char → Option (String → Bool))
    (content : List Char) : CommitPatterns :=
  match grepMatch content with
  | some cap => { pattern := some cap, regex := compile cap }
  | none => {}

/-- Commit strategy 2 (gitCheckParser.ts 131–139): quoted pattern after
a `commit` keyword. -/
def commitStep2 (compile : List Char → Option (String → Bool))
    (content : List Char) (r : CommitPatterns) : CommitPatterns :=
  if r.pattern.isNone then
    match keyQuoteMatch "commit".data content with
    | some cap => { r with pattern := some cap, regex := compile cap }
    | none => r
  else r

/-- Commit strategy 3 (gitCheckParser.ts 141–149): `=~` comparison on
the commit message. -/
def commitStep3 (compile : List Char → Option (String → Bool))
    (content : List Char) (r : CommitPatterns) : CommitPatterns :=
  if r.pattern.isNone then
    match commitTildeMatch content with
    | some cap => { r with pattern := some cap, regex := compile cap }
    | none => r
  else r

/-- Commit strategy 4 (gitCheckParser.ts 151–169): conventional-commit
keyword default. -/
def commitStep4 (compileI : List Char → Option (String → Bool))
    (content : List Char) (r : CommitPatterns) : CommitPatterns :=
  if r.pattern.isNone then
    if containsSub "conventional-commit".data content
        || containsSub "conventionalcommit".data content then
      { r with pattern := some defaultCommitPattern,
               regex := compileI defaultCommitPattern }
    else r
  else r

/-- `extractCommitMessagePatterns` (gitCheckParser.ts 120–172): the
four strategies in source order; no default pattern is applied when
none matches. -/
def extractCommitMessagePatterns
    (compile compileI : List Char → Option (String → Bool))
    (content : List Char) : CommitPatterns :=
  commitStep4 compileI content
    (commitStep3 compile content
      (commitStep2 compile content (commitStep1 compile content)))

/-- `GitCheckRules` (gitCheckParser.ts 4–13).  Optional fields are
`Option`; a compiled regex is an abstract matcher. -/
structure GitCheckRules where
  branchNamePattern : Option String := none
  branchNameRegex : Option (String → Bool) := none
  commitMessagePattern : Option String := none
  commitMessageRegex : Option (String → Bool) := none
  allowedBranchTypes : Option (List String) := none
  requiresTicketNumber : Option Bool := none
  commitRequiresTicketNumber : Option Bool := none
  hasGitCheck : Bool := false

/-- `parseGitCheckRules` (gitCheckParser.ts 25–67).  The file argument
is `none` when `.gitlab-ci.yml` is missing or unreadable (the
`try`/`catch` makes any I/O failure return the zero-value rules); the
function is total, so it never throws to its caller. -/
def parseGitCheckRules
    (compile compileI : List Char → Option (String → Bool))
    (file : Option String) : GitCheckRules :=
  match file with
  | none => {}
  | some content0 =>
    let content := content0.data
    if !(containsSub "git-check".data content || containsSub "git_check".data content) then
      {}
    else
      let bp := extractBranchNamePatterns compile compileI content
      let base : GitCheckRules := { hasGitCheck := true }
      let r1 : GitCheckRules :=
        match bp.pattern with
        | some p =>
          { base with branchNamePattern := some ⟨p⟩,
                      branchNameRegex := bp.regex,
                      allowedBranchTypes := bp.types.map (·.map fun l => (⟨l⟩ : String)),
                      requiresTicketNumber := some (ticketHeuristic p) }
        | none => base
      let cp := extractCommitMessagePatterns compile compileI content
      match cp.pattern with
      | some p =>
        { r1 with commitMessagePattern := some ⟨p⟩,
                  commitMessageRegex := cp.regex,
                  commitRequiresTicketNumber := some (ticketHeuristic p) }
      | none => r1

/-- The `{ valid, error? }` result of the validators. -/
structure ValidationResult where
  valid : Bool
  error : Option String := none

/-- `validateBranchName` (gitCheckParser.ts 177–192). -/
def validateBranchName (branchName : String) (rules : GitCheckRules) :
    ValidationResult :=
  if isProtectedBranch branchName then
    { valid := false, error := some ("Cannot use protected branch: " ++ branchName) }
  else
    match rules.branchNameRegex with
    | some rex =>
      if !rex branchName then
        { valid := false,
          error := some ("Branch name does not match pattern: " ++
                         (rules.branchNamePattern.getD "undefined")) }
      else { valid := true }
    | none => { valid := true }

/-- `validateCommitMessage` (gitCheckParser.ts 197–210): only the first
line is tested. -/
def validateCommitMessage (message : String) (rules : GitCheckRules) :
    ValidationResult :=
  match rules.commitMessageRegex with
  | some rex =>
    let firstLine : String := ⟨(splitOnC '\n' message.data).headD []⟩
    if !rex firstLine then
      { valid := false,
        error := some ("Commit message does not match pattern: " ++
                       (rules.commitMessagePattern.getD "undefined")) }
    else { valid := true }
  | none => { valid := true }

/-- Conservative syntactic model of `new RegExp` success, used only to
instantiate the `compile` parameters at concrete pattern strings: it
tracks escapes, character classes and group nesting and rejects an
unterminated class/group or a trailing escape. The matcher returned on
success is irrelevant to every property proved about it (only the
presence or absence of a compiled regex is at stake), so it is a
constant function. -/
def regexScan : List Char → Bool → Bool → Nat → Bool
  | [], esc, inCl, d => !esc && !inCl && d = 0
  | _ :: cs, true, inCl, d => regexScan cs false inCl d
  | c :: cs, false, true, d =>
    if c = '\\' then regexScan cs true true d
    else if c = ']' then regexScan cs false false d
    else regexScan cs false true d
  | c :: cs, false, false, d =>
    if c = '\\' then regexScan cs true false d
    else if c = '[' then regexScan cs false true d
    else if c = '(' then regexScan cs false false (d + 1)
    else if c = ')' then
      (match d with
       | 0 => false
       | d' + 1 => regexScan cs false false d')
    else regexScan cs false false d

/-- Approximate `new RegExp`: `none` models a thrown syntax error. -/
def compileApprox (p : List Char) : Option (String → Bool) :=
  if regexScan p false false 0 then some (fun _ => false) else none

/-! ## Target-branch selection (llmService.ts 531–645) -/

/-- The confidence tier of a `TargetBranchDecision`. -/
inductive Confidence where
  | high
  | medium
  | low
deriving DecidableEq

/-- The decision record returned by `selectTargetBranch`. -/
structure TargetBranchDecision where
  targetBranch : String
  confidence : Confidence
  reasoning : String
deriving DecidableEq

/-- The `priorityOrder` array of `fallbackTargetBranch`
(llmService.ts 627). -/
def priorityOrder : List String :=
  ["develop", "development", "dev", "main", "master"]

/-- The `for` loop of `fallbackTargetBranch`: first branch of the
priority order contained in the available set. -/
def fallbackLoop (availableBranches : List String) : List String → Option String
  | [] => none
  | b :: rest =>
    if availableBranches.contains b then some b
    else fallbackLoop availableBranches rest

/-- `fallbackTargetBranch` (llmService.ts 623–644). -/
def fallbackTargetBranch (availableBranches : List String)
    (defaultBranch : String) : TargetBranchDecision :=
  match fallbackLoop availableBranches priorityOrder with
  | some b =>
    { targetBranch := b, confidence := .medium,
      reasoning := "Fallback selection: " ++ b ++ " (priority-based)" }
  | none =>
    { targetBranch := defaultBranch, confidence := .low,
      reasoning := "Fallback to project default branch: " ++ defaultBranch }

/-- The object parsed from the model's JSON answer in
`selectTargetBranch`; the optional fields model missing JSON keys
(`result.confidence || 'medium'`, `result.reasoning || ...`). -/
structure ParsedTargetAnswer where
  targetBranch : String
  confidence : Option Confidence := none
  reasoning : Option String := none

/-- The decision logic of `selectTargetBranch` (llmService.ts 601–617)
after the chat call: `parsed` is `none` when the chat call failed or
the cleaned content did not parse as JSON (the `catch` path); a parsed
answer naming a branch outside the available set is discarded in
favour of the deterministic fallback. -/
def selectTargetBranchDecision (parsed : Option ParsedTargetAnswer)
    (availableBranches : List String) (defaultBranch : String) :
    TargetBranchDecision :=
  match parsed with
  | none => fallbackTargetBranch availableBranches defaultBranch
  | some r =>
    if !availableBranches.contains r.targetBranch then
      fallbackTargetBranch availableBranches defaultBranch
    else
      { targetBranch := r.targetBranch,
        confidence := r.confidence.getD .medium,
        reasoning := r.reasoning.getD "Selected based on branch naming conventions" }

/-! ## fullWorkflow.ts — the orchestrator as an event trace

`fullWorkflowCommand` (fullWorkflow.ts 18–367) is embedded as a
function from an environment — the outcomes of user interactions and
backend calls — to the list of the side-effecting operations it
performs, in program order.  Each backend call is assumed to succeed
unless the environment says otherwise (`hasRemote`,
`projectParseOK`, `pushTrackedFails`); a thrown backend error aborts
the run, so its trace is a prefix of the corresponding modelled trace
and every ordering/absence property proved below carries over to it.
The ticket input-box validation guarantees its format but is not
needed by any property, so the entered value is taken as given. -/

/-- One side-effecting operation of the workflow, in source order of
first occurrence. -/
inductive WEvent where
  | parseRules
  | getStatus
  | noChangesMsg
  | getCurrentBranch
  | inputTicket
  | getAllDiff
  | llmGenBranch
  | branchErr
  | createBranch (name : String)
  | stageAll
  | getStagedDiff
  | llmGenCommit
  | commitErr
  | confirmCommitPrompt
  | gitCommit (msg : String)
  | pushTracked
  | pushPlain
  | getRemote
  | getProject
  | listMRs
  | useExistingMR
  | getMRTarget
  | getCommitsBetween
  | getBranchDiff
  | readTemplate
  | genMRDesc
  | inputTitle
  | createMR
  | fetchChanges (attempt : Nat)
  | sleep (ms : Nat)
  | warnNoChanges
  | openExternal
  | reviewCall
  | postNote
  | postDiscussion (idx : Nat)
  | workflowDone
deriving DecidableEq

/-- A review comment as consumed by the posting loop
(fullWorkflow.ts 299–330). -/
structure RComment where
  file : String
  line : Nat
  severity : String
deriving DecidableEq

/-- The environment of one workflow invocation: results of user
interactions and backend calls.  `cancel k` is the value of
`token.isCancellationRequested` at the k-th cancellation checkpoint
(numbered in source order); `changesAt k` is the changed-file count
returned by the k-th `getMergeRequestChanges` call. -/
structure WEnv where
  rules : GitCheckRules
  hasChanges : Bool
  currentBranch : String
  ticketInput : Option String
  rawBranchLLM : String
  rawCommitLLM : String
  cancel : Nat → Bool
  confirmCommitOK : Bool
  pushTrackedFails : Bool
  hasRemote : Bool
  projectParseOK : Bool
  existingMR : Bool
  hasConfigTarget : Bool
  hasMRTemplate : Bool
  titleProvided : Bool
  changesAt : Nat → Nat
  comments : List RComment
  hasDiffRefs : Bool
  changeFoundFor : String → Bool

/-- `needsTicket` (fullWorkflow.ts 62): either ticket-requirement flag
is truthy. -/
def wfNeedsTicket (e : WEnv) : Bool :=
  e.rules.requiresTicketNumber.getD false
    || e.rules.commitRequiresTicketNumber.getD false

/-- The ticket number used by the workflow (fullWorkflow.ts 64–80):
entered value or the `TASK-001` default, upper-cased; `none` when no
ticket is needed. -/
def wfTicket (e : WEnv) : Option String :=
  if wfNeedsTicket e then some ⟨upperL (e.ticketInput.getD "TASK-001").data⟩
  else none

/-- The changes-polling loop (fullWorkflow.ts 250–257):
`while (changes.length === 0 && retryCount < maxRetries)` with
`maxRetries = 5`, sleeping 2000 ms before each re-fetch.  Arguments:
remaining fuel (which starts at 5 and dominates `5 - retryCount`),
current `retryCount`, current changed-file count.  Returns the emitted
events and the final count. -/
def pollFrom (f : Nat → Nat) : Nat → Nat → Nat → List WEvent × Nat
  | 0, _, cnt => ([], cnt)
  | fuel + 1, r, cnt =>
    if cnt = 0 && r < 5 then
      let res := pollFrom f fuel (r + 1) (f (r + 1))
      (WEvent.sleep 2000 :: WEvent.fetchChanges (r + 1) :: res.1, res.2)
    else ([], cnt)

/-- Review and comment posting (fullWorkflow.ts 265–361): the review
call, the cancellation check, the summary note, the bounded inline
discussions (error/warning severities, at most five, each gated on a
truthy file and line, present diff refs and a matching change), and
the completion dialog. -/
def reviewTail (e : WEnv) : List WEvent :=
  WEvent.reviewCall ::
    (if e.cancel 7 then []
     else
       WEvent.postNote ::
         (((e.comments.filter
              (fun c => c.severity = "error" || c.severity = "warning")).take 5).enum.flatMap
            (fun ic =>
              if (!(ic.2.file = "")) && (!(ic.2.line = 0)) && e.hasDiffRefs then
                if e.changeFoundFor ic.2.file then [WEvent.postDiscussion ic.1]
                else []
              else []) ++
          [WEvent.workflowDone]))

/-- The changes stage (fullWorkflow.ts 247–263): initial fetch, the
bounded retry loop, then either the zero-changes warning with an early
completion or the review tail. -/
def changesBlock (e : WEnv) : List WEvent :=
  let p := pollFrom e.changesAt 5 0 (e.changesAt 0)
  WEvent.fetchChanges 0 ::
    (p.1 ++
      (if p.2 = 0 then [WEvent.warnNoChanges, WEvent.openExternal]
       else reviewTail e))

/-- After the MR is resolved (fullWorkflow.ts 241): cancellation
check, then the changes stage. -/
def afterMR (e : WEnv) : List WEvent :=
  if e.cancel 6 then [] else changesBlock e

/-- The MR-creation path (fullWorkflow.ts 190–239). -/
def createMRBlock (e : WEnv) : List WEvent :=
  (if e.hasConfigTarget then [] else [WEvent.getMRTarget]) ++
    WEvent.getCommitsBetween :: WEvent.getBranchDiff ::
      ((if e.hasMRTemplate then [WEvent.readTemplate] else []) ++
        WEvent.genMRDesc ::
          (if e.cancel 5 then []
           else
             WEvent.inputTitle ::
               (if !e.titleProvided then []
                else WEvent.createMR :: afterMR e)))

/-- MR resolution (fullWorkflow.ts 179–239): list open MRs for the
source branch; reuse the first hit or create a new one. -/
def mrBlock (e : WEnv) : List WEvent :=
  WEvent.listMRs ::
    (if e.existingMR then WEvent.useExistingMR :: afterMR e
     else createMRBlock e)

/-- Push and project resolution (fullWorkflow.ts 148–176): push with
upstream tracking, one retry without it on failure, remote-URL and
project lookup (either failure throws and ends the trace), then the MR
stage. -/
def afterCommitBlock (e : WEnv) : List WEvent :=
  if e.cancel 2 then []
  else
    WEvent.pushTracked ::
      ((if e.pushTrackedFails then [WEvent.pushPlain] else []) ++
        (if e.cancel 3 then []
         else
           WEvent.getRemote ::
             (if !e.hasRemote then []
              else if !e.projectParseOK then []
              else
                WEvent.getProject ::
                  (if e.cancel 4 then [] else mrBlock e))))

/-- The `withProgress` body up to the commit (fullWorkflow.ts
109–148): cancellation check, staging, diff, commit-message
generation via the normalizer, validation gate, cancellation check,
confirmation dialog, the commit itself. -/
def progressBlock (e : WEnv) : List WEvent :=
  if e.cancel 0 then []
  else
    WEvent.stageAll :: WEvent.getStagedDiff :: WEvent.llmGenCommit ::
      (let msg := normalizeCommitMessage e.rawCommitLLM (wfTicket e)
       if !(validateCommitMessage msg e.rules).valid then [WEvent.commitErr]
       else if e.cancel 1 then []
       else
         WEvent.confirmCommitPrompt ::
           (if !e.confirmCommitOK then []
            else WEvent.gitCommit msg :: afterCommitBlock e))

/-- The full workflow trace (fullWorkflow.ts 18–367).  On a protected
current branch the orchestrator generates a branch name from the raw
LLM output via the normalizer, validates it, and only on success
creates and checks out the new branch (`createBranch(name, true)` is
`checkoutLocalBranch` in gitService) before entering the staging and
commit stage. -/
def fullWorkflowEvents (e : WEnv) : List WEvent :=
  WEvent.parseRules :: WEvent.getStatus ::
    (if !e.hasChanges then [WEvent.noChangesMsg]
     else
       WEvent.getCurrentBranch ::
         ((if wfNeedsTicket e then [WEvent.inputTicket] else []) ++
           (if isProtectedBranch e.currentBranch then
              let gen := normalizeBranchName e.rawBranchLLM
              WEvent.getAllDiff :: WEvent.llmGenBranch ::
                (if (validateBranchName gen e.rules).valid then
                   WEvent.createBranch gen :: progressBlock e
                 else [WEvent.branchErr])
            else progressBlock e)))

/-! ## Predicates used in claim statements -/

/-- The spec's branch grammar `^[a-z]+/[A-Z]+-[0-9]+-[a-z0-9-]+$`,
case-sensitive (no `i` flag). -/
def specBranchPattern (s : List Char) : Bool :=
  let t := s.takeWhile isaz
  if t.isEmpty then false
  else
    match s.drop t.length with
    | '/' :: r1 =>
      let L := r1.takeWhile isAZ
      if L.isEmpty then false
      else
        match r1.drop L.length with
        | '-' :: r2 =>
          let D := r2.takeWhile isDigitB
          if D.isEmpty then false
          else
            match r2.drop D.length with
            | '-' :: r3 => !r3.isEmpty && r3.all isLowerAl
            | _ => false
        | _ => false
    | _ => false

/-- No two consecutive hyphens. -/
def noDH : List Char → Bool
  | [] => true
  | [_] => true
  | c :: d :: rest => !(c = '-' && d = '-') && noDH (d :: rest)

/-- A fully canonical branch name: lowercase type, uppercase ticket,
non-empty lowercase description with no doubled and no trailing
hyphen.  These are exactly the outputs the normalizer reproduces
unchanged. -/
def canonBranch (s : List Char) : Bool :=
  let t := s.takeWhile isaz
  if t.isEmpty then false
  else
    match s.drop t.length with
    | '/' :: r1 =>
      let L := r1.takeWhile isAZ
      if L.isEmpty then false
      else
        match r1.drop L.length with
        | '-' :: r2 =>
          let D := r2.takeWhile isDigitB
          if D.isEmpty then false
          else
            match r2.drop D.length with
            | '-' :: r3 =>
              !r3.isEmpty && r3.all isLowerAl && noDH ('-' :: r3)
                && !(r3.getLastD '-' = '-')
            | _ => false
        | _ => false
    | _ => false

/-- A commit-message description left unchanged by the response
cleanup and the conventional match: non-empty, free of tag/backtick
markup and line terminators, not starting with whitespace, not ending
with whitespace or a quote. -/
def cleanDescB (d : List Char) : Bool :=
  !d.isEmpty && d.all (fun c => !(c = '<') && !(c = tickC) && !isNL c)
    && !jsWS (d.headD ' ') && !jsWS (d.getLastD ' ') && !isQuote (d.getLastD ' ')

/-- A scope content left unchanged by the cleanup and the scope
parser: free of closing parentheses and of tag/backtick markup. -/
def cleanScopeB (sc : List Char) : Bool :=
  sc.all (fun c => !(c = ')') && !(c = '<') && !(c = tickC))

/-- A canonical conventional commit message for the upper-cased ticket
`up`: `ty(up): d` with `ty` one of the conventional types and `d` a
clean description. -/
def canonCommitFor (up m : List Char) : Bool :=
  (commitTypes.any (fun ty =>
      (ty ++ '(' :: (up ++ [')', ':', ' '])).isPrefixOf m
        && cleanDescB (m.drop (ty.length + up.length + 4))))
    && cleanScopeB up && up.all (fun c => !isNL c)

/-- Recognizer for `fetchChanges` events. -/
def isFetchEv : WEvent → Bool
  | .fetchChanges _ => true
  | _ => false

/-- A concrete workflow environment: protected current branch `main`,
all backend calls succeed, user confirms everything, one changed file
is reported at every fetch. -/
def envMain : WEnv :=
  { rules := {}
    hasChanges := true
    currentBranch := "main"
    ticketInput := none
    rawBranchLLM := "feature/ABC-123-login"
    rawCommitLLM := "feat(ABC-123): add login"
    cancel := fun _ => false
    confirmCommitOK := true
    pushTrackedFails := false
    hasRemote := true
    projectParseOK := true
    existingMR := true
    hasConfigTarget := false
    hasMRTemplate := false
    titleProvided := true
    changesAt := fun _ => 1
    comments := []
    hasDiffRefs := false
    changeFoundFor := fun _ => true }

/-- The same environment with a change feed that always reports zero
changed files. -/
def envMainZero : WEnv := { envMain with changesAt := fun _ => 0 }

/-! ## Supporting lemmas: characters -/

theorem toNat_ofNat_valid {n : Nat} (h : n < 55296) : (Char.ofNat n).toNat = n := by
  have hv : n.isValidChar := Or.inl h
  rw [Char.ofNat, dif_pos hv]
  simp [Char.ofNatAux, Char.toNat, UInt32.toNat, BitVec.toNat_ofNatLt]

theorem char_toNat_inj {a b : Char} (h : a.toNat = b.toNat) : a = b :=
  Char.ext (UInt32.ext h)

theorem toLower_toNat (c : Char) :
    c.toLower.toNat = if 65 ≤ c.toNat ∧ c.toNat ≤ 90 then c.toNat + 32 else c.toNat := by
  simp only [Char.toLower]
  split
  · rename_i h
    rw [toNat_ofNat_valid (by omega)]
  · rfl

theorem toUpper_toNat (c : Char) :
    c.toUpper.toNat = if 97 ≤ c.toNat ∧ c.toNat ≤ 122 then c.toNat - 32 else c.toNat := by
  simp only [Char.toUpper]
  split
  · rename_i h
    rw [toNat_ofNat_valid (by omega)]
  · rfl

/-- For a character `s` that is not a letter of either case, equality
with `s` is unaffected by `toLower`. -/
theorem toLower_eq_sym {s : Char} (h1 : ¬(97 ≤ s.toNat ∧ s.toNat ≤ 122))
    (h2 : ¬(65 ≤ s.toNat ∧ s.toNat ≤ 90)) (c : Char) : (c.toLower = s) ↔ (c = s) := by
  constructor
  · intro h
    apply char_toNat_inj
    have hl := toLower_toNat c
    rw [h] at hl
    split at hl <;> omega
  · intro h
    subst h
    apply char_toNat_inj
    rw [toLower_toNat]
    split <;> omega

/-- `toLower` fixes every character that is not an uppercase letter. -/
theorem toLower_fix {c : Char} (h : ¬(65 ≤ c.toNat ∧ c.toNat ≤ 90)) :
    c.toLower = c := by
  apply char_toNat_inj
  rw [toLower_toNat]
  split <;> omega

/-- `toUpper` fixes every character that is not a lowercase letter. -/
theorem toUpper_fix {c : Char} (h : ¬(97 ≤ c.toNat ∧ c.toNat ≤ 122)) :
    c.toUpper = c := by
  apply char_toNat_inj
  rw [toUpper_toNat]
  split <;> omega

theorem isaz_toNat {c : Char} (h : isaz c = true) : 97 ≤ c.toNat ∧ c.toNat ≤ 122 := by
  simp only [isaz, Bool.and_eq_true, decide_eq_true_eq] at h
  exact ⟨h.1, h.2⟩

theorem isAZ_toNat {c : Char} (h : isAZ c = true) : 65 ≤ c.toNat ∧ c.toNat ≤ 90 := by
  simp only [isAZ, Bool.and_eq_true, decide_eq_true_eq] at h
  exact ⟨h.1, h.2⟩

theorem isDigitB_toNat {c : Char} (h : isDigitB c = true) : 48 ≤ c.toNat ∧ c.toNat ≤ 57 := by
  simp only [isDigitB, Bool.and_eq_true, decide_eq_true_eq] at h
  exact ⟨h.1, h.2⟩

theorem toLower_fix_isaz {c : Char} (h : isaz c = true) : c.toLower = c :=
  toLower_fix (by have := isaz_toNat h; omega)

theorem toLower_fix_isLowerAl {c : Char} (h : isLowerAl c = true) : c.toLower = c := by
  simp only [isLowerAl, Bool.or_eq_true, decide_eq_true_eq] at h
  rcases h with (h | h) | h
  · exact toLower_fix_isaz h
  · exact toLower_fix (by have := isDigitB_toNat h; omega)
  · subst h
    decide

theorem toUpper_fix_isAZ {c : Char} (h : isAZ c = true) : c.toUpper = c :=
  toUpper_fix (by have := isAZ_toNat h; omega)

theorem toUpper_fix_isDigitB {c : Char} (h : isDigitB c = true) : c.toUpper = c :=
  toUpper_fix (by have := isDigitB_toNat h; omega)

/-! ## Supporting lemmas: list scanners -/

theorem stripPreCI_self : ∀ (p r : List Char), stripPreCI p (p ++ r) = some r
  | [], _ => rfl
  | c :: cs, r => by
    simp only [stripPreCI, List.cons_append, if_pos rfl]
    exact stripPreCI_self cs r

theorem stripPreCI_head_ne {p0 c : Char} (h : ¬(p0.toLower = c.toLower))
    (p cs : List Char) : stripPreCI (p0 :: p) (c :: cs) = none := by
  simp [stripPreCI, h]

/-- A character different from `'<'` cannot start a case-insensitive
match of a pattern starting with `'<'`. -/
theorem stripPreCI_lt_none {c : Char} (h : ¬(c = '<')) (p cs : List Char) :
    stripPreCI ('<' :: p) (c :: cs) = none := by
  apply stripPreCI_head_ne
  intro hc
  have : c.toLower = '<' := by
    have hlt : ('<' : Char).toLower = '<' := by decide
    rw [← hc, hlt]
  exact h ((toLower_eq_sym (by decide) (by decide) c).mp this)

theorem takeWhile_nil_of_head {p : Char → Bool} {c : Char} (h : p c = false)
    (cs : List Char) : (c :: cs).takeWhile p = [] := by
  simp [List.takeWhile_cons, h]

theorem takeWhile_append_not {p : Char → Bool} :
    ∀ {a : List Char}, (∀ c ∈ a, p c = true) → ∀ {b : Char}, p b = false →
      ∀ (r : List Char), (a ++ b :: r).takeWhile p = a := by
  intro a
  induction a with
  | nil =>
    intro _ b hb r
    simpa [List.takeWhile_cons] using takeWhile_nil_of_head hb r
  | cons x xs ih =>
    intro h b hb r
    have hx : p x = true := h x (by simp)
    simp only [List.cons_append, List.takeWhile_cons, hx, if_pos]
    rw [ih (fun c hc => h c (by simp [hc])) hb r]

theorem dropWhile_id_of_head {p : Char → Bool} {c : Char} (h : p c = false)
    (cs : List Char) : (c :: cs).dropWhile p = c :: cs := by
  simp [List.dropWhile_cons, h]

theorem dropWhile_id_of_all {p : Char → Bool} {l : List Char}
    (h : ∀ c ∈ l, p c = false) : l.dropWhile p = l := by
  cases l with
  | nil => rfl
  | cons x xs => exact dropWhile_id_of_head (h x (by simp)) xs

/-- `jsTrim` fixes a string whose first and last characters are not
whitespace. -/
theorem jsTrim_id {l : List Char} (h1 : jsWS (l.headD 'x') = false)
    (h2 : jsWS (l.getLastD 'x') = false) : jsTrim l = l := by
  unfold jsTrim
  cases l with
  | nil => rfl
  | cons c cs =>
    rw [dropWhile_id_of_head (by simpa using h1)]
    cases hr : (c :: cs).reverse with
    | nil => simp at hr
    | cons y ys =>
      have hy : jsWS y = false := by
        have hg : (c :: cs).getLast? = some y := by
          rw [← List.head?_reverse, hr]
          rfl
        have hgd : (c :: cs).getLastD 'x' = y := by
          rw [List.getLastD_eq_getLast?, hg]
          rfl
        rwa [hgd] at h2
      rw [dropWhile_id_of_head hy, ← hr, List.reverse_reverse]

/-- `jsTrim` fixes a string with no whitespace at all. -/
theorem jsTrim_id_of_all {l : List Char} (h : ∀ c ∈ l, jsWS c = false) :
    jsTrim l = l := by
  cases l with
  | nil => rfl
  | cons c cs =>
    apply jsTrim_id
    · simpa using h c (by simp)
    · have : (c :: cs).getLastD 'x' ∈ c :: cs := by
        rw [List.getLastD_eq_getLast?]
        cases hl : (c :: cs).getLast? with
        | none => simp at hl
        | some a => simpa using List.mem_of_mem_getLast? hl
      exact h _ this

theorem getLastD_mem {l : List Char} (h : l ≠ []) (x : Char) : l.getLastD x ∈ l := by
  rw [List.getLastD_eq_getLast?]
  cases hl : l.getLast? with
  | none => exact absurd (List.getLast?_eq_none_iff.mp hl) h
  | some a => simpa using List.mem_of_mem_getLast? hl

theorem getLastD_concat (a : List Char) (x d : Char) :
    (a ++ [x]).getLastD d = x := by
  rw [List.getLastD_eq_getLast?, List.getLast?_concat]
  rfl

theorem map_id_on {f : Char → Char} :
    ∀ {l : List Char}, (∀ c ∈ l, f c = c) → l.map f = l
  | [], _ => rfl
  | c :: cs, h => by
    simp only [List.map_cons, h c (by simp)]
    rw [map_id_on (fun x hx => h x (by simp [hx]))]

/-! Identity lemmas for the markup-stripping scanners.  Note that an
exhausted fuel returns the input unchanged, so the identity statements
need no fuel hypotheses. -/

theorem removeThinkF_id : ∀ (n : Nat) (l : List Char),
    (∀ c ∈ l, ¬(c = '<')) → removeThinkF n l = l
  | 0, _, _ => rfl
  | _ + 1, [], _ => rfl
  | n + 1, c :: cs, h => by
    have hc : ¬(c = '<') := h c (by simp)
    have hrec := removeThinkF_id n cs (fun x hx => h x (by simp [hx]))
    have hopen : "<think>".data = '<' :: "think>".data := rfl
    simp only [removeThinkF, hopen, stripPreCI_lt_none hc, hrec]

theorem parseOpenTag_ne {c : Char} (h : ¬(c = '<')) (cs : List Char) :
    parseOpenTag (c :: cs) = none := by
  unfold parseOpenTag
  split
  · rename_i heq
    injection heq with h1 h2
    simp_all
  · rfl

theorem removeTagsF_id : ∀ (n : Nat) (l : List Char),
    (∀ c ∈ l, ¬(c = '<')) → removeTagsF n l = l
  | 0, _, _ => rfl
  | _ + 1, [], _ => rfl
  | n + 1, c :: cs, h => by
    have hc : ¬(c = '<') := h c (by simp)
    have hrec := removeTagsF_id n cs (fun x hx => h x (by simp [hx]))
    simp only [removeTagsF, parseOpenTag_ne hc, hrec]

theorem fence_not_prefix {c : Char} (h : ¬(c = tickC)) (cs : List Char) :
    fenceL.isPrefixOf (c :: cs) = false := by
  simp only [fenceL, List.isPrefixOf, Bool.and_eq_false_iff]
  left
  simpa using fun hh => h hh.symm

theorem removeFencesF_id : ∀ (n : Nat) (l : List Char),
    (∀ c ∈ l, ¬(c = tickC)) → removeFencesF n l = l
  | 0, _, _ => rfl
  | _ + 1, [], _ => rfl
  | n + 1, c :: cs, h => by
    have hc : ¬(c = tickC) := h c (by simp)
    have hrec := removeFencesF_id n cs (fun x hx => h x (by simp [hx]))
    simp only [removeFencesF, fence_not_prefix hc, hrec]
    rw [if_neg (by simp)]

theorem unwrapInlineF_id : ∀ (n : Nat) (l : List Char),
    (∀ c ∈ l, ¬(c = tickC)) → unwrapInlineF n l = l
  | 0, _, _ => rfl
  | _ + 1, [], _ => rfl
  | n + 1, c :: cs, h => by
    have hc : ¬(c = tickC) := h c (by simp)
    have hrec := unwrapInlineF_id n cs (fun x hx => h x (by simp [hx]))
    simp only [unwrapInlineF, if_neg hc, hrec]

theorem unwrapInlineF_nil : ∀ n : Nat, unwrapInlineF n [] = []
  | 0 => rfl
  | _ + 1 => rfl

theorem stripLead_id {p : Char → Bool} {l : List Char}
    (h : p (l.headD 'x') = false) : stripLead p l = l := by
  cases l with
  | nil => rfl
  | cons c cs =>
    simp only [List.headD] at h
    simp [stripLead, h]

theorem stripTrail_id {p : Char → Bool} {l : List Char}
    (h : p (l.getLastD 'x') = false) : stripTrail p l = l := by
  unfold stripTrail
  cases hl : l.getLast? with
  | none => rfl
  | some a =>
    have : l.getLastD 'x' = a := by
      rw [List.getLastD_eq_getLast?, hl]
      rfl
    rw [this] at h
    simp [h]

theorem stripEdgeQuotes_id {l : List Char}
    (h1 : isQuote (l.headD 'x') = false) (h2 : isQuote (l.getLastD 'x') = false) :
    stripEdgeQuotes l = l := by
  unfold stripEdgeQuotes
  rw [stripLead_id h1, stripTrail_id h2]

/-- Characters appearing in canonical branch names. -/
def canonChar (c : Char) : Bool :=
  isLetterB c || isDigitB c || c = '-' || c = '/'

theorem canonChar_ranges {c : Char} (h : canonChar c = true) :
    (45 ≤ c.toNat ∧ c.toNat ≤ 122) ∧ c.toNat ≠ 60 ∧ c.toNat ≠ 96 ∧
      c.toNat ≠ 46 ∧ c.toNat ≠ 58 ∧ c.toNat ≠ 59 ∧ c.toNat ≠ 61 ∧ c.toNat ≠ 62 := by
  simp only [canonChar, isLetterB, Bool.or_eq_true, decide_eq_true_eq] at h
  rcases h with (((h | h) | h) | h) | h
  · have := isaz_toNat h
    omega
  · have := isAZ_toNat h
    omega
  · have := isDigitB_toNat h
    omega
  · subst h
    decide
  · subst h
    decide

theorem canonChar_not_ws {c : Char} (h : canonChar c = true) : jsWS c = false := by
  have hr := (canonChar_ranges h).1
  simp only [jsWS, Bool.or_eq_false_iff, decide_eq_false_iff_not]
  refine ⟨⟨⟨⟨⟨?_, ?_⟩, ?_⟩, ?_⟩, ?_⟩, ?_⟩ <;>
    · intro heq
      rw [heq] at hr
      exact absurd hr (by decide)

theorem canonChar_not_nl {c : Char} (h : canonChar c = true) : isNL c = false := by
  have hr := (canonChar_ranges h).1
  simp only [isNL, Bool.or_eq_false_iff, decide_eq_false_iff_not]
  refine ⟨?_, ?_⟩ <;>
    · intro heq
      rw [heq] at hr
      exact absurd hr (by decide)

theorem canonChar_not_quote {c : Char} (h : canonChar c = true) : isQuote c = false := by
  have hr := (canonChar_ranges h).1
  simp only [isQuote, Bool.or_eq_false_iff, decide_eq_false_iff_not]
  refine ⟨?_, ?_⟩ <;>
    · intro heq
      rw [heq] at hr
      exact absurd hr (by decide)

theorem canonChar_not_lt {c : Char} (h : canonChar c = true) : ¬(c = '<') := by
  intro heq
  have hr := (canonChar_ranges h).2.1
  rw [heq] at hr
  exact hr (by decide)

theorem canonChar_not_tick {c : Char} (h : canonChar c = true) : ¬(c = tickC) := by
  intro heq
  have hr := (canonChar_ranges h).2.2.1
  rw [heq] at hr
  exact hr (by decide)

theorem canonChar_not_lf {c : Char} (h : canonChar c = true) : ¬(c = '\n') := by
  intro heq
  have hr := (canonChar_ranges h).1
  rw [heq] at hr
  exact absurd hr (by decide)

/-- The cleanup pipeline of the branch normalizer fixes any string of
canonical characters. -/
theorem cleanupBranch_id {l : List Char} (h : ∀ c ∈ l, canonChar c = true) :
    cleanupBranch l = l := by
  unfold cleanupBranch
  rw [jsTrim_id_of_all (fun c hc => canonChar_not_ws (h c hc))]
  rw [show removeThink l = l from
    removeThinkF_id _ _ (fun c hc => canonChar_not_lt (h c hc))]
  rw [show removeTags l = l from
    removeTagsF_id _ _ (fun c hc => canonChar_not_lt (h c hc))]
  rw [show removeFences l = l from
    removeFencesF_id _ _ (fun c hc => canonChar_not_tick (h c hc))]
  rw [show unwrapInline l = l from
    unwrapInlineF_id _ _ (fun c hc => canonChar_not_tick (h c hc))]
  apply stripEdgeQuotes_id
  · cases l with
    | nil => rfl
    | cons c cs => exact canonChar_not_quote (h c (by simp))
  · cases l with
    | nil => rfl
    | cons c cs => exact canonChar_not_quote (h _ (getLastD_mem (by simp) 'x'))

/-! ## Supporting lemmas: the canonical branch grammar -/

theorem drop_takeWhile_length (p : Char → Bool) :
    ∀ l : List Char, l.drop (l.takeWhile p).length = l.dropWhile p := by
  intro l
  induction l with
  | nil => rfl
  | cons c cs ih =>
    by_cases hp : p c
    · simp [List.takeWhile_cons, List.dropWhile_cons, hp, ih]
    · simp [List.takeWhile_cons, List.dropWhile_cons, hp]

theorem canonBranch_decomp {s : List Char} (h : canonBranch s = true) :
    ∃ t L D d, s = t ++ '/' :: (L ++ '-' :: (D ++ '-' :: d)) ∧
      t ≠ [] ∧ (∀ c ∈ t, isaz c = true) ∧
      L ≠ [] ∧ (∀ c ∈ L, isAZ c = true) ∧
      D ≠ [] ∧ (∀ c ∈ D, isDigitB c = true) ∧
      d ≠ [] ∧ (∀ c ∈ d, isLowerAl c = true) ∧
      noDH ('-' :: d) = true ∧ ¬(d.getLastD '-' = '-') := by
  simp only [canonBranch] at h
  by_cases h0 : (s.takeWhile isaz).isEmpty
  · rw [if_pos h0] at h
    exact absurd h (by simp)
  rw [if_neg h0] at h
  have hs : s = s.takeWhile isaz ++ s.dropWhile isaz :=
    (List.takeWhile_append_dropWhile isaz s).symm
  rw [drop_takeWhile_length] at h
  split at h
  case _ r1 heq1 =>
    have hs1 : s = s.takeWhile isaz ++ '/' :: r1 := by rw [heq1] at hs; exact hs
    by_cases hL0 : (r1.takeWhile isAZ).isEmpty
    · rw [if_pos hL0] at h
      exact absurd h (by simp)
    rw [if_neg hL0] at h
    have hr1 : r1 = r1.takeWhile isAZ ++ r1.dropWhile isAZ :=
      (List.takeWhile_append_dropWhile isAZ r1).symm
    rw [drop_takeWhile_length] at h
    split at h
    case _ r2 heq2 =>
      have hs2 : r1 = r1.takeWhile isAZ ++ '-' :: r2 := by rw [heq2] at hr1; exact hr1
      by_cases hD0 : (r2.takeWhile isDigitB).isEmpty
      · rw [if_pos hD0] at h
        exact absurd h (by simp)
      rw [if_neg hD0] at h
      have hr2 : r2 = r2.takeWhile isDigitB ++ r2.dropWhile isDigitB :=
        (List.takeWhile_append_dropWhile isDigitB r2).symm
      rw [drop_takeWhile_length] at h
      split at h
      case _ r3 heq3 =>
        have hs3 : r2 = r2.takeWhile isDigitB ++ '-' :: r3 := by rw [heq3] at hr2; exact hr2
        simp only [Bool.and_eq_true, Bool.not_eq_true', decide_eq_true_eq,
          List.all_eq_true] at h
        rw [hs3] at hs2
        rw [hs2] at hs1
        refine ⟨s.takeWhile isaz, r1.takeWhile isAZ, r2.takeWhile isDigitB, r3,
          ?_, ?_, ?_, ?_, ?_, ?_, ?_, ?_, ?_, ?_, ?_⟩
        · exact hs1
        · simpa using h0
        · intro c hc
          exact List.mem_takeWhile_imp hc
        · simpa using hL0
        · intro c hc
          exact List.mem_takeWhile_imp hc
        · simpa using hD0
        · intro c hc
          exact List.mem_takeWhile_imp hc
        · simpa using h.1.1.1
        · exact h.1.1.2
        · exact h.1.2
        · simpa using h.2
      case _ hne =>
        exact absurd h (by simp)
    case _ hne =>
      exact absurd h (by simp)
  case _ hne =>
    exact absurd h (by simp)

theorem isLowerAl_isLetterB_or {c : Char} (h : isLowerAl c = true) :
    (isLetterB c || isDigitB c || c = '-') = true := by
  simp only [isLowerAl, isLetterB, Bool.or_eq_true] at h ⊢
  tauto

theorem isLowerAl_canonChar {c : Char} (h : isLowerAl c = true) :
    canonChar c = true := by
  simp only [isLowerAl, canonChar, isLetterB, Bool.or_eq_true] at h ⊢
  tauto

theorem isLowerAl_not_nl {c : Char} (h : isLowerAl c = true) : isNL c = false :=
  canonChar_not_nl (isLowerAl_canonChar h)

theorem isEmpty_false_of_ne {l : List Char} (h : ¬(l = [])) : l.isEmpty = false := by
  cases l with
  | nil => exact absurd rfl h
  | cons c cs => rfl

/-- Evaluation of the main branch match on a well-shaped input. -/
theorem mainBranchMatch_build {t L D d : List Char}
    (ht : ¬(t = [])) (hta : ∀ c ∈ t, isLetterB c = true)
    (hL : ¬(L = [])) (hLa : ∀ c ∈ L, isLetterB c = true)
    (hD : ¬(D = [])) (hDa : ∀ c ∈ D, isDigitB c = true)
    (hd : ¬(d = [])) (hdn : ∀ c ∈ d, isNL c = false) :
    mainBranchMatch (t ++ '/' :: (L ++ '-' :: (D ++ '-' :: d)))
      = some (t, L ++ '-' :: D, d) := by
  have h1 : (t ++ '/' :: (L ++ '-' :: (D ++ '-' :: d))).takeWhile isLetterB = t :=
    takeWhile_append_not hta (by decide) _
  simp only [mainBranchMatch, h1]
  rw [if_neg (by simpa using ht)]
  rw [List.drop_left]
  have h2 : (L ++ '-' :: (D ++ '-' :: d)).takeWhile isLetterB = L :=
    takeWhile_append_not hLa (by decide) _
  simp only [h2]
  rw [if_neg (by simpa using hL)]
  rw [List.drop_left]
  have h3 : (D ++ '-' :: d).takeWhile isDigitB = D :=
    takeWhile_append_not hDa (by decide) _
  simp only [h3]
  rw [if_neg (by simpa using hD)]
  rw [List.drop_left]
  have hcond : (!d.isEmpty && d.all fun c => !isNL c) = true := by
    rw [isEmpty_false_of_ne hd]
    simp only [Bool.not_false, Bool.true_and, List.all_eq_true]
    exact fun c hc => by simp [hdn c hc]
  simp [hcond]

/-- Evaluation of the strict line test on a well-shaped input. -/
theorem strictBranchTest_build {t L D d : List Char}
    (ht : ¬(t = [])) (hta : ∀ c ∈ t, isLetterB c = true)
    (hL : ¬(L = [])) (hLa : ∀ c ∈ L, isLetterB c = true)
    (hD : ¬(D = [])) (hDa : ∀ c ∈ D, isDigitB c = true)
    (hd : ¬(d = [])) (hda : ∀ c ∈ d, isLowerAl c = true) :
    strictBranchTest (t ++ '/' :: (L ++ '-' :: (D ++ '-' :: d))) = true := by
  have h1 : (t ++ '/' :: (L ++ '-' :: (D ++ '-' :: d))).takeWhile isLetterB = t :=
    takeWhile_append_not hta (by decide) _
  simp only [strictBranchTest, h1]
  rw [if_neg (by simpa using ht)]
  rw [List.drop_left]
  have h2 : (L ++ '-' :: (D ++ '-' :: d)).takeWhile isLetterB = L :=
    takeWhile_append_not hLa (by decide) _
  simp only [h2]
  rw [if_neg (by simpa using hL)]
  rw [List.drop_left]
  have h3 : (D ++ '-' :: d).takeWhile isDigitB = D :=
    takeWhile_append_not hDa (by decide) _
  simp only [h3]
  rw [if_neg (by simpa using hD)]
  rw [List.drop_left]
  have hcond : (!d.isEmpty && d.all fun c => isLetterB c || isDigitB c || c = '-') = true := by
    rw [isEmpty_false_of_ne hd]
    simp only [Bool.not_false, Bool.true_and, List.all_eq_true]
    exact fun c hc => isLowerAl_isLetterB_or (hda c hc)
  simp [hcond]

/-- Evaluation of the spec's case-sensitive pattern on a well-shaped
input. -/
theorem specBranchPattern_build {t L D d : List Char}
    (ht : ¬(t = [])) (hta : ∀ c ∈ t, isaz c = true)
    (hL : ¬(L = [])) (hLa : ∀ c ∈ L, isAZ c = true)
    (hD : ¬(D = [])) (hDa : ∀ c ∈ D, isDigitB c = true)
    (hd : ¬(d = [])) (hda : ∀ c ∈ d, isLowerAl c = true) :
    specBranchPattern (t ++ '/' :: (L ++ '-' :: (D ++ '-' :: d))) = true := by
  have h1 : (t ++ '/' :: (L ++ '-' :: (D ++ '-' :: d))).takeWhile isaz = t :=
    takeWhile_append_not hta (by decide) _
  simp only [specBranchPattern, h1]
  rw [if_neg (by simpa using ht)]
  rw [List.drop_left]
  have h2 : (L ++ '-' :: (D ++ '-' :: d)).takeWhile isAZ = L :=
    takeWhile_append_not hLa (by decide) _
  simp only [h2]
  rw [if_neg (by simpa using hL)]
  rw [List.drop_left]
  have h3 : (D ++ '-' :: d).takeWhile isDigitB = D :=
    takeWhile_append_not hDa (by decide) _
  simp only [h3]
  rw [if_neg (by simpa using hD)]
  rw [List.drop_left]
  have hcond : (!d.isEmpty && d.all isLowerAl) = true := by
    rw [isEmpty_false_of_ne hd]
    simp only [Bool.not_false, Bool.true_and, List.all_eq_true]
    exact hda
  simp [hcond]

theorem noDH_cons_of {c : Char} {l : List Char}
    (h : ¬(c = '-') ∨ ¬(l.headD 'x' = '-')) (hl : noDH l = true) :
    noDH (c :: l) = true := by
  cases l with
  | nil => rfl
  | cons y ys =>
    simp only [noDH, Bool.and_eq_true, Bool.not_eq_true']
    refine ⟨?_, hl⟩
    simp only [List.headD] at h
    rcases h with h | h <;> simp [h]

theorem noDH_append_of {a : List Char} (ha : ∀ c ∈ a, ¬(c = '-')) {b : List Char}
    (hb : noDH b = true) : noDH (a ++ b) = true := by
  induction a with
  | nil => simpa
  | cons x xs ih =>
    rw [List.cons_append]
    apply noDH_cons_of
    · left
      exact ha x (by simp)
    · exact ih (fun c hc => ha c (by simp [hc]))

theorem colHy_cons_hyphen (cs : List Char) :
    colHy false ('-' :: cs) = '-' :: colHy true cs := by
  simp [colHy]

theorem colHy_cons_ne {c : Char} (h : ¬(c = '-')) (b : Bool) (cs : List Char) :
    colHy b (c :: cs) = c :: colHy false cs := by
  simp [colHy, h]

theorem colHy_id_aux : ∀ {l : List Char}, noDH l = true →
    ∀ b : Bool, (b = true → ¬(l.headD 'x' = '-')) → colHy b l = l
  | [], _, _, _ => rfl
  | c :: cs, h, b, hb => by
    by_cases hc : c = '-'
    · subst hc
      have hbf : b = false := by
        cases b with
        | false => rfl
        | true => exact ((hb rfl) rfl).elim
      subst hbf
      rw [colHy_cons_hyphen]
      congr 1
      cases cs with
      | nil => rfl
      | cons y ys =>
        have hy : ¬(y = '-') ∧ noDH (y :: ys) = true := by
          simp only [noDH, Bool.and_eq_true, Bool.not_eq_true',
            Bool.and_eq_false_iff, decide_eq_false_iff_not] at h
          rcases h with ⟨h1 | h1, h2⟩
          · simp at h1
          · exact ⟨h1, h2⟩
        apply colHy_id_aux hy.2 true
        intro _
        simpa using hy.1
    · have hcs : noDH cs = true := by
        cases cs with
        | nil => rfl
        | cons y ys =>
          simp only [noDH, Bool.and_eq_true] at h
          exact h.2
      rw [colHy_cons_ne hc]
      congr 1
      exact colHy_id_aux hcs false (by simp)

theorem collapseHyphens_id {l : List Char} (h : noDH l = true) :
    collapseHyphens l = l :=
  colHy_id_aux h false (by simp)

theorem wsHy_id : ∀ {l : List Char}, (∀ c ∈ l, jsWS c = false) →
    ∀ b : Bool, wsHy b l = l
  | [], _, _ => rfl
  | c :: cs, h, b => by
    have hc : jsWS c = false := h c (by simp)
    simp only [wsHy, hc, Bool.false_eq_true, if_false]
    congr 1
    exact wsHy_id (fun x hx => h x (by simp [hx])) false

theorem splitOnC_single {sep : Char} : ∀ {l : List Char},
    (∀ c ∈ l, ¬(c = sep)) → splitOnC sep l = [l]
  | [], _ => rfl
  | c :: cs, h => by
    have hc : ¬(c = sep) := h c (by simp)
    have hrec := splitOnC_single (l := cs) (fun x hx => h x (by simp [hx]))
    simp only [splitOnC, hrec, if_neg hc]

theorem getLastD_irrel {l : List Char} (h : ¬(l = [])) (x y : Char) :
    l.getLastD x = l.getLastD y := by
  cases l with
  | nil => exact absurd rfl h
  | cons c cs => rw [List.getLastD_cons, List.getLastD_cons]

theorem getLastD_append_right {b : List Char} (hb : ¬(b = [])) :
    ∀ (a : List Char) (x : Char), (a ++ b).getLastD x = b.getLastD x := by
  intro a
  induction a with
  | nil => intro x; rfl
  | cons c cs ih =>
    intro x
    rw [List.cons_append, List.getLastD_cons, ih c]
    exact getLastD_irrel hb c x

/-- The shaping stage of the branch normalizer fixes every canonical
branch name. -/
theorem shapeBranch_canon {s : List Char} (h : canonBranch s = true) :
    shapeBranch s = s := by
  obtain ⟨t, L, D, d, hs, ht, hta, hL, hLa, hD, hDa, hd, hda, hdh, hdl⟩ :=
    canonBranch_decomp h
  have hne : ¬(s = []) := by
    rw [hs]
    cases t with
    | nil => exact absurd rfl ht
    | cons c cs => simp
  have hall : ∀ c ∈ s, canonChar c = true := by
    intro c hc
    rw [hs] at hc
    rcases List.mem_append.mp hc with hc | hc
    · simp [canonChar, isLetterB, hta c hc]
    rcases List.mem_cons.mp hc with rfl | hc
    · decide
    rcases List.mem_append.mp hc with hc | hc
    · simp [canonChar, isLetterB, hLa c hc]
    rcases List.mem_cons.mp hc with rfl | hc
    · decide
    rcases List.mem_append.mp hc with hc | hc
    · simp [canonChar, hDa c hc]
    rcases List.mem_cons.mp hc with rfl | hc
    · decide
    exact isLowerAl_canonChar (hda c hc)
  have htrim : jsTrim s = s := jsTrim_id_of_all (fun c hc => canonChar_not_ws (hall c hc))
  have hta' : ∀ c ∈ t, isLetterB c = true := fun c hc => by
    simp [isLetterB, hta c hc]
  have hLa' : ∀ c ∈ L, isLetterB c = true := fun c hc => by
    simp [isLetterB, hLa c hc]
  have hstrict : strictBranchTest s = true := by
    rw [hs]
    exact strictBranchTest_build ht hta' hL hLa' hD hDa hd hda
  have hpick : pickLine s = s := by
    unfold pickLine
    rw [htrim, splitOnC_single (fun c hc => canonChar_not_lf (hall c hc))]
    have hfil : ([s]).filter (fun l => !(jsTrim l).isEmpty) = [s] := by
      simp [List.filter_cons, htrim, isEmpty_false_of_ne hne]
    rw [hfil]
    simp only [List.isEmpty_cons, List.find?]
    rw [htrim, hstrict]
    rfl
  rw [shapeBranch, hpick, htrim]
  rw [show wsToHyphen s = s from
    wsHy_id (fun c hc => canonChar_not_ws (hall c hc)) false]
  have hmain : mainBranchMatch s = some (t, L ++ '-' :: D, d) := by
    rw [hs]
    exact mainBranchMatch_build ht hta' hL hLa' hD hDa hd
      (fun c hc => isLowerAl_not_nl (hda c hc))
  rw [caseNormalize, hmain]
  dsimp only
  have hlt : lowerL t = t := map_id_on (fun c hc => toLower_fix_isaz (hta c hc))
  have hup : upperL (L ++ '-' :: D) = L ++ '-' :: D := by
    apply map_id_on
    intro c hc
    simp only [List.mem_append, List.mem_cons] at hc
    rcases hc with hc | hc | hc
    · exact toUpper_fix_isAZ (hLa c hc)
    · subst hc
      decide
    · exact toUpper_fix_isDigitB (hDa c hc)
  have hld : lowerL d = d := map_id_on (fun c hc => toLower_fix_isLowerAl (hda c hc))
  have hsan : sanitizeDesc d = d := map_id_on (fun c hc => by simp [hda c hc])
  rw [hlt, hup, hld, hsan]
  have hback : t ++ '/' :: ((L ++ '-' :: D) ++ '-' :: d) = s := by
    rw [hs]
    simp
  rw [hback]
  have hdig_ne : ∀ c ∈ D, ¬(c = '-') := by
    intro c hc heq
    subst heq
    exact absurd (isDigitB_toNat (hDa _ hc)) (by decide)
  have hL_ne : ∀ c ∈ L, ¬(c = '-') := by
    intro c hc heq
    subst heq
    exact absurd (isAZ_toNat (hLa _ hc)) (by decide)
  have ht_ne : ∀ c ∈ t, ¬(c = '-') := by
    intro c hc heq
    subst heq
    exact absurd (isaz_toNat (hta _ hc)) (by decide)
  have hnodh : noDH s = true := by
    rw [hs]
    apply noDH_append_of ht_ne
    apply noDH_cons_of (Or.inl (by decide))
    apply noDH_append_of hL_ne
    apply noDH_cons_of
    · right
      cases D with
      | nil => exact absurd rfl hD
      | cons c cs =>
        simp only [List.cons_append, List.headD]
        exact hdig_ne c (by simp)
    · exact noDH_append_of hdig_ne hdh
  rw [collapseHyphens_id hnodh]
  apply stripTrail_id
  have hlast : s.getLastD 'x' = d.getLastD '-' := by
    have h1 : s.getLastD 'x' = s.getLastD '-' := getLastD_irrel hne 'x' '-'
    rw [h1, hs]
    rw [getLastD_append_right (by simp) t '-']
    rw [List.getLastD_cons]
    rw [getLastD_append_right (by simp) L '/']
    rw [List.getLastD_cons]
    rw [getLastD_append_right (by simp) D '-']
    rw [List.getLastD_cons]
  rw [hlast]
  simpa using hdl

/-- Every character of a canonical branch name is canonical. -/
theorem canonBranch_chars {s : List Char} (h : canonBranch s = true) :
    ∀ c ∈ s, canonChar c = true := by
  obtain ⟨t, L, D, d, hs, ht, hta, hL, hLa, hD, hDa, hd, hda, hdh, hdl⟩ :=
    canonBranch_decomp h
  intro c hc
  rw [hs] at hc
  rcases List.mem_append.mp hc with hc | hc
  · simp [canonChar, isLetterB, hta c hc]
  rcases List.mem_cons.mp hc with rfl | hc
  · decide
  rcases List.mem_append.mp hc with hc | hc
  · simp [canonChar, isLetterB, hLa c hc]
  rcases List.mem_cons.mp hc with rfl | hc
  · decide
  rcases List.mem_append.mp hc with hc | hc
  · simp [canonChar, hDa c hc]
  rcases List.mem_cons.mp hc with rfl | hc
  · decide
  exact isLowerAl_canonChar (hda c hc)

theorem canonBranch_ne_nil {s : List Char} (h : canonBranch s = true) : ¬(s = []) := by
  obtain ⟨t, L, D, d, hs, ht, _⟩ := canonBranch_decomp h
  rw [hs]
  cases t with
  | nil => exact absurd rfl ht
  | cons c cs => simp

/-- The branch normalizer fixes every canonical branch name. -/
theorem normBranch_canon {s : List Char} (h : canonBranch s = true) :
    normBranchL s = s := by
  rw [normBranchL, cleanupBranch_id (canonBranch_chars h), shapeBranch_canon h]

/-! ## Supporting lemmas: cleanup of wrapped responses -/

theorem dropAfterCI_exact {q : List Char} : ∀ {t : List Char},
    (∀ c ∈ t, ¬(c = '<')) → ∀ r : List Char,
    dropAfterCI ('<' :: q) (t ++ '<' :: (q ++ r)) = some r
  | [], _, r => by
    show dropAfterCI ('<' :: q) ('<' :: (q ++ r)) = some r
    simp only [dropAfterCI]
    rw [show stripPreCI ('<' :: q) ('<' :: (q ++ r)) = some r from
      stripPreCI_self ('<' :: q) r]
  | c :: t', h, r => by
    have hc : ¬(c = '<') := h c (by simp)
    have hrec := dropAfterCI_exact (q := q)
      (fun x hx => h x (List.mem_cons_of_mem c hx)) r
    show dropAfterCI ('<' :: q) (c :: (t' ++ '<' :: (q ++ r))) = some r
    simp only [dropAfterCI, stripPreCI_lt_none hc, hrec]

theorem removeThinkF_step_found {n : Nat} {c : Char} {cs r r2 : List Char}
    (h1 : stripPreCI "<think>".data (c :: cs) = some r)
    (h2 : dropAfterCI "</think>".data r = some r2) :
    removeThinkF (n + 1) (c :: cs) = removeThinkF n r2 := by
  rw [removeThinkF]
  simp only [h1, h2]

theorem removeThink_wrap {t b : List Char} (ht : ∀ c ∈ t, ¬(c = '<'))
    (hb : ∀ c ∈ b, ¬(c = '<')) :
    removeThink ("<think>".data ++ (t ++ ("</think>".data ++ b))) = b := by
  have h1 : stripPreCI "<think>".data
      ('<' :: ("think>".data ++ (t ++ ("</think>".data ++ b))))
        = some (t ++ ("</think>".data ++ b)) :=
    stripPreCI_self "<think>".data _
  have h2 : dropAfterCI "</think>".data (t ++ ("</think>".data ++ b)) = some b := by
    have := dropAfterCI_exact (q := "/think>".data) ht b
    exact this
  show removeThinkF (("think>".data ++ (t ++ ("</think>".data ++ b))).length + 1)
      ('<' :: ("think>".data ++ (t ++ ("</think>".data ++ b)))) = b
  rw [removeThinkF_step_found h1 h2]
  exact removeThinkF_id _ b hb

theorem removeFencesF_nil : ∀ n : Nat, removeFencesF n [] = []
  | 0 => rfl
  | _ + 1 => rfl

theorem removeFencesF_concat : ∀ (n : Nat) (m : List Char),
    (∀ c ∈ m, ¬(c = tickC)) → removeFencesF n (m ++ [tickC]) = m ++ [tickC]
  | 0, _, _ => rfl
  | n + 1, [], _ => by
    show removeFencesF (n + 1) [tickC] = [tickC]
    simp only [removeFencesF]
    rw [show fenceL.isPrefixOf [tickC] = false from by decide]
    simp only [Bool.false_eq_true, if_false]
    rw [removeFencesF_nil n]
  | n + 1, c :: m', h => by
    have hc : ¬(c = tickC) := h c (by simp)
    have hrec := removeFencesF_concat n m' (fun x hx => h x (by simp [hx]))
    show removeFencesF (n + 1) (c :: (m' ++ [tickC])) = c :: (m' ++ [tickC])
    simp only [removeFencesF, fence_not_prefix hc, hrec]
    rw [if_neg (by simp)]

theorem removeFencesF_step_no {n : Nat} {c : Char} {cs : List Char}
    (h : fenceL.isPrefixOf (c :: cs) = false) :
    removeFencesF (n + 1) (c :: cs) = c :: removeFencesF n cs := by
  rw [removeFencesF]
  rw [if_neg (by simp [h])]

theorem removeFences_sandwich {b : List Char} (hb : ∀ c ∈ b, ¬(c = tickC))
    (hbne : ¬(b = [])) :
    removeFences (tickC :: (b ++ [tickC])) = tickC :: (b ++ [tickC]):= by
  show removeFencesF ((b ++ [tickC]).length + 1) (tickC :: (b ++ [tickC]))
      = tickC :: (b ++ [tickC])
  have hpref : fenceL.isPrefixOf (tickC :: (b ++ [tickC])) = false := by
    cases b with
    | nil => exact absurd rfl hbne
    | cons b0 b' =>
      have hb0 : ¬(b0 = tickC) := hb b0 (by simp)
      simp only [List.cons_append, fenceL, List.isPrefixOf, Bool.and_eq_false_iff]
      right
      left
      simpa using fun hh => hb0 hh.symm
  rw [removeFencesF_step_no hpref]
  rw [removeFencesF_concat _ _ hb]

theorem unwrapInline_sandwich {b : List Char} (hb : ∀ c ∈ b, ¬(c = tickC))
    (hbne : ¬(b = [])) :
    unwrapInline (tickC :: (b ++ [tickC])) = b := by
  have hrun : (b ++ [tickC]).takeWhile (fun x => !(x = tickC)) = b := by
    apply takeWhile_append_not
    · intro c hc
      simp [hb c hc]
    · simp
  show unwrapInlineF ((b ++ [tickC]).length + 1) (tickC :: (b ++ [tickC])) = b
  rw [unwrapInlineF]
  rw [if_pos rfl]
  rw [hrun]
  rw [if_neg (by simp [isEmpty_false_of_ne hbne])]
  rw [List.drop_left]
  simp [unwrapInlineF_nil]

theorem stripEdgeQuotes_dquote_wrap (b : List Char) :
    stripEdgeQuotes ('\x22' :: (b ++ ['\x22'])) = b := by
  unfold stripEdgeQuotes
  rw [show stripLead isQuote ('\x22' :: (b ++ ['\x22'])) = b ++ ['\x22'] from by
    simp [stripLead, isQuote]]
  unfold stripTrail
  rw [List.getLast?_concat]
  simp [isQuote, List.dropLast_concat]

/-- Cleanup of a think-block followed by an inline-code-wrapped
canonical branch name. -/
theorem cleanupBranch_think_wrap {t b : List Char} (ht : ∀ c ∈ t, ¬(c = '<'))
    (hball : ∀ c ∈ b, canonChar c = true) (hbne : ¬(b = [])) :
    cleanupBranch
      ("<think>".data ++ (t ++ ("</think>".data ++ (tickC :: (b ++ [tickC]))))) = b := by
  have hbl : ∀ c ∈ b, ¬(c = '<') := fun c hc => canonChar_not_lt (hball c hc)
  have hbt : ∀ c ∈ b, ¬(c = tickC) := fun c hc => canonChar_not_tick (hball c hc)
  have hR : ∀ c ∈ tickC :: (b ++ [tickC]), ¬(c = '<') := by
    intro c hc
    rcases List.mem_cons.mp hc with rfl | hc
    · decide
    rcases List.mem_append.mp hc with hc | hc
    · exact hbl c hc
    · simp only [List.mem_singleton] at hc
      subst hc
      decide
  unfold cleanupBranch
  have htrim : jsTrim
      ("<think>".data ++ (t ++ ("</think>".data ++ (tickC :: (b ++ [tickC])))))
        = "<think>".data ++ (t ++ ("</think>".data ++ (tickC :: (b ++ [tickC])))) := by
    apply jsTrim_id
    · rfl
    · rw [getLastD_append_right (by simp) _ 'x']
      rw [getLastD_append_right (by simp) _ 'x']
      rw [getLastD_append_right (by simp) _ 'x']
      rw [List.getLastD_cons, getLastD_concat]
      rfl
  rw [htrim]
  rw [removeThink_wrap ht hR]
  rw [show removeTags (tickC :: (b ++ [tickC])) = tickC :: (b ++ [tickC]) from
    removeTagsF_id _ _ hR]
  rw [removeFences_sandwich hbt hbne]
  rw [unwrapInline_sandwich hbt hbne]
  apply stripEdgeQuotes_id
  · cases b with
    | nil => exact absurd rfl hbne
    | cons c cs => exact canonChar_not_quote (hball c (by simp))
  · cases b with
    | nil => exact absurd rfl hbne
    | cons c cs => exact canonChar_not_quote (hball _ (getLastD_mem (by simp) 'x'))

/-- Cleanup of a double-quote-wrapped canonical branch name. -/
theorem cleanupBranch_quote_wrap {b : List Char}
    (hball : ∀ c ∈ b, canonChar c = true) :
    cleanupBranch ('\x22' :: (b ++ ['\x22'])) = b := by
  have hq : ∀ c ∈ '\x22' :: (b ++ ['\x22']), ¬(c = '<') ∧ ¬(c = tickC) := by
    intro c hc
    rcases List.mem_cons.mp hc with rfl | hc
    · exact ⟨by decide, by decide⟩
    rcases List.mem_append.mp hc with hc | hc
    · exact ⟨canonChar_not_lt (hball c hc), canonChar_not_tick (hball c hc)⟩
    · simp only [List.mem_singleton] at hc
      subst hc
      exact ⟨by decide, by decide⟩
  unfold cleanupBranch
  have htrim : jsTrim ('\x22' :: (b ++ ['\x22'])) = '\x22' :: (b ++ ['\x22']) := by
    apply jsTrim_id
    · rfl
    · rw [List.getLastD_cons, getLastD_concat]
      rfl
  rw [htrim]
  rw [show removeThink ('\x22' :: (b ++ ['\x22'])) = '\x22' :: (b ++ ['\x22']) from
    removeThinkF_id _ _ (fun c hc => (hq c hc).1)]
  rw [show removeTags ('\x22' :: (b ++ ['\x22'])) = '\x22' :: (b ++ ['\x22']) from
    removeTagsF_id _ _ (fun c hc => (hq c hc).1)]
  rw [show removeFences ('\x22' :: (b ++ ['\x22'])) = '\x22' :: (b ++ ['\x22']) from
    removeFencesF_id _ _ (fun c hc => (hq c hc).2)]
  rw [show unwrapInline ('\x22' :: (b ++ ['\x22'])) = '\x22' :: (b ++ ['\x22']) from
    unwrapInlineF_id _ _ (fun c hc => (hq c hc).2)]
  exact stripEdgeQuotes_dquote_wrap b

/-! ## Supporting lemmas: the commit-message normalizer -/

/-- The commit cleanup fixes a string free of markup whose ends are
neither whitespace nor quotes. -/
theorem cleanupMsg_id {l : List Char}
    (hlt : ∀ c ∈ l, ¬(c = '<')) (htk : ∀ c ∈ l, ¬(c = tickC))
    (hh1 : jsWS (l.headD 'x') = false) (hh2 : isQuote (l.headD 'x') = false)
    (hl1 : jsWS (l.getLastD 'x') = false) (hl2 : isQuote (l.getLastD 'x') = false) :
    cleanupMsg l = l := by
  unfold cleanupMsg
  rw [jsTrim_id hh1 hl1]
  rw [show removeThink l = l from removeThinkF_id _ _ hlt]
  rw [show removeTags l = l from removeTagsF_id _ _ hlt]
  rw [show removeFences l = l from removeFencesF_id _ _ htk]
  rw [show unwrapInline l = l from unwrapInlineF_id _ _ htk]
  rw [stripEdgeQuotes_id hh2 hl2]
  exact jsTrim_id hh1 hl1

theorem descParse_space {d : List Char} (hd : ¬(d = []))
    (hhead : jsWS (d.headD 'x') = false) (hnl : ∀ c ∈ d, isNL c = false) :
    descParse (' ' :: d) = some d := by
  have htwd : d.takeWhile jsWS = [] := by
    cases d with
    | nil => rfl
    | cons c cs => exact takeWhile_nil_of_head (by simpa using hhead) cs
  have htw : (' ' :: d).takeWhile jsWS = [' '] := by
    rw [List.takeWhile_cons]
    rw [if_pos (by decide)]
    rw [htwd]
  unfold descParse
  rw [htw]
  rw [show (' ' :: d).drop ([' '].length) = d from rfl]
  rw [if_pos (by simp [isEmpty_false_of_ne hd])]
  rw [if_pos (by simp only [List.all_eq_true]; exact fun c hc => by simp [hnl c hc])]

/-- The successful branch of the type-alternation loop. -/
theorem tryTypes_found : ∀ (ts : List (List Char)) {ty rest : List Char}
    {sc : Option (List Char)} {d : List Char},
    ty ∈ ts → (∀ t' ∈ ts, ¬(t' = ty) → stripPreCI t' (ty ++ rest) = none) →
    parseAfterType rest = some (sc, d) →
    tryTypes ts (ty ++ rest) = some (ty, sc, d)
  | [], _, _, _, _, hmem, _, _ => absurd hmem (by simp)
  | t' :: ts', ty, rest, sc, d, hmem, hfail, hparse => by
    by_cases heq : t' = ty
    · subst heq
      unfold tryTypes
      rw [stripPreCI_self t' rest]
      dsimp only
      rw [hparse, List.take_left]
    · have hne : stripPreCI t' (ty ++ rest) = none := hfail t' (by simp) heq
      have hmem' : ty ∈ ts' := by
        rcases List.mem_cons.mp hmem with h | h
        · exact absurd h.symm heq
        · exact h
      unfold tryTypes
      rw [hne]
      exact tryTypes_found ts' hmem'
        (fun x hx hxne => hfail x (List.mem_cons_of_mem t' hx) hxne) hparse

theorem parseAfterType_scope {sc d : List Char} (hsc : ∀ c ∈ sc, ¬(c = ')'))
    (hd : ¬(d = [])) (hhead : jsWS (d.headD 'x') = false)
    (hnl : ∀ c ∈ d, isNL c = false) :
    parseAfterType ('(' :: (sc ++ ')' :: ':' :: ' ' :: d)) = some (some sc, d) := by
  have htw : (sc ++ ')' :: ':' :: ' ' :: d).takeWhile (fun c => !(c = ')')) = sc := by
    apply takeWhile_append_not
    · intro c hc
      simp [hsc c hc]
    · simp
  rw [parseAfterType]
  rw [htw, List.drop_left]
  show (descParse (' ' :: d)).map (fun d => (some sc, d)) = some (some sc, d)
  rw [descParse_space hd hhead hnl]
  rfl

theorem parseAfterType_noscope {d : List Char}
    (hd : ¬(d = [])) (hhead : jsWS (d.headD 'x') = false)
    (hnl : ∀ c ∈ d, isNL c = false) :
    parseAfterType (':' :: ' ' :: d) = some (none, d) := by
  rw [parseAfterType]
  rw [descParse_space hd hhead hnl]
  rfl

theorem takeWhile_all {p : Char → Bool} : ∀ {l : List Char},
    (∀ c ∈ l, p c = true) → l.takeWhile p = l
  | [], _ => rfl
  | c :: cs, h => by
    rw [List.takeWhile_cons, if_pos (h c (by simp))]
    rw [takeWhile_all (fun x hx => h x (by simp [hx]))]

theorem ticketShape_build {letterOK : Char → Bool} {U Dg : List Char}
    (hU : ¬(U = [])) (hUa : ∀ c ∈ U, letterOK c = true)
    (hhy : letterOK '-' = false)
    (hDg : ¬(Dg = [])) (hDga : ∀ c ∈ Dg, isDigitB c = true) :
    ticketShape letterOK (U ++ '-' :: Dg) = true := by
  simp only [ticketShape]
  rw [takeWhile_append_not hUa hhy]
  rw [if_neg (by simpa using hU)]
  rw [List.drop_left]
  show (!(Dg.takeWhile isDigitB).isEmpty
      && (Dg.drop (Dg.takeWhile isDigitB).length).isEmpty) = true
  rw [takeWhile_all hDga]
  simp [isEmpty_false_of_ne hDg]

theorem ticketShape_decomp {letterOK : Char → Bool} {sc : List Char}
    (h : ticketShape letterOK sc = true) :
    ∃ U Dg, sc = U ++ '-' :: Dg ∧ ¬(U = []) ∧ (∀ c ∈ U, letterOK c = true) ∧
      ¬(Dg = []) ∧ (∀ c ∈ Dg, isDigitB c = true) := by
  simp only [ticketShape] at h
  by_cases h0 : (sc.takeWhile letterOK).isEmpty
  · rw [if_pos h0] at h
    exact absurd h (by simp)
  rw [if_neg h0] at h
  rw [drop_takeWhile_length] at h
  split at h
  case _ r heq =>
    simp only [Bool.and_eq_true] at h
    have hsc : sc = sc.takeWhile letterOK ++ '-' :: r := by
      have hx := (List.takeWhile_append_dropWhile letterOK sc).symm
      rw [heq] at hx
      exact hx
    have hr : r = r.takeWhile isDigitB := by
      have hx := (List.takeWhile_append_dropWhile isDigitB r).symm
      rw [drop_takeWhile_length] at h
      have hnil : r.dropWhile isDigitB = [] := by
        have h2 := h.2
        exact List.isEmpty_iff.mp h2
      rw [hnil, List.append_nil] at hx
      exact hx
    refine ⟨sc.takeWhile letterOK, r, hsc, by simpa using h0,
      fun c hc => List.mem_takeWhile_imp hc, ?_, ?_⟩
    · intro hrnil
      subst hrnil
      exact absurd h.1 (by simp)
    · intro c hc
      rw [hr] at hc
      exact List.mem_takeWhile_imp hc
  case _ hne =>
    exact absurd h (by simp)

/-- A scope of exact ticket shape also has case-insensitive ticket
shape. -/
theorem ticketShape_mono {sc : List Char} (h : ticketShape isAZ sc = true) :
    ticketShape isLetterB sc = true := by
  obtain ⟨U, Dg, hsc, hU, hUa, hDg, hDga⟩ := ticketShape_decomp h
  rw [hsc]
  exact ticketShape_build hU
    (fun c hc => by simp [isLetterB, hUa c hc]) (by decide) hDg hDga

/-- The commit types are mutually non-prefix up to case: stripping a
different type from a message that starts with `ty` fails, whatever
follows. -/
theorem typesFailOther {ty : List Char} (hty : ty ∈ commitTypes) (rest : List Char) :
    ∀ t' ∈ commitTypes, ¬(t' = ty) → stripPreCI t' (ty ++ rest) = none := by
  intro t' ht' hne
  simp only [commitTypes, List.mem_map, List.mem_cons, List.mem_singleton] at hty ht'
  rcases hty with ⟨a, ha, rfl⟩
  rcases ht' with ⟨b, hb, rfl⟩
  rcases ha with rfl|rfl|rfl|rfl|rfl|rfl|rfl|rfl|rfl|rfl|h <;>
    first
      | exact absurd h (by simp)
      | (rcases hb with rfl|rfl|rfl|rfl|rfl|rfl|rfl|rfl|rfl|rfl|h <;>
          first
            | exact absurd h (by simp)
            | exact absurd rfl hne
            | rfl)

/-- The conventional match on a message `ty(sc): d`. -/
theorem conventionalMatchC_scope {ty sc d : List Char} (hty : ty ∈ commitTypes)
    (hsc : ∀ c ∈ sc, ¬(c = ')')) (hd : ¬(d = []))
    (hhead : jsWS (d.headD 'x') = false) (hnl : ∀ c ∈ d, isNL c = false) :
    conventionalMatchC (ty ++ '(' :: (sc ++ ')' :: ':' :: ' ' :: d))
      = some (ty, some sc, d) :=
  tryTypes_found commitTypes hty (typesFailOther hty _)
    (parseAfterType_scope hsc hd hhead hnl)

/-- The conventional match on a scopeless message `ty: d` (the scope
group is optional, so the conventional regex already matches here). -/
theorem conventionalMatchC_noscope {ty d : List Char} (hty : ty ∈ commitTypes)
    (hd : ¬(d = [])) (hhead : jsWS (d.headD 'x') = false)
    (hnl : ∀ c ∈ d, isNL c = false) :
    conventionalMatchC (ty ++ ':' :: ' ' :: d) = some (ty, none, d) :=
  tryTypes_found commitTypes hty (typesFailOther hty _)
    (parseAfterType_noscope hd hhead hnl)

theorem lowerL_commitType {ty : List Char} (hty : ty ∈ commitTypes) :
    lowerL ty = ty := by
  simp only [commitTypes, List.mem_map, List.mem_cons, List.mem_singleton] at hty
  rcases hty with ⟨a, ha, rfl⟩
  rcases ha with rfl|rfl|rfl|rfl|rfl|rfl|rfl|rfl|rfl|rfl|h <;>
    first
      | exact absurd h (by simp)
      | rfl

theorem commitType_chars {ty : List Char} (hty : ty ∈ commitTypes) :
    ∀ c ∈ ty, isaz c = true := by
  simp only [commitTypes, List.mem_map, List.mem_cons, List.mem_singleton] at hty
  rcases hty with ⟨a, ha, rfl⟩
  rcases ha with rfl|rfl|rfl|rfl|rfl|rfl|rfl|rfl|rfl|rfl|h <;>
    first
      | exact absurd h (by simp)
      | decide

theorem commitType_ne_nil {ty : List Char} (hty : ty ∈ commitTypes) :
    ¬(ty = []) := by
  simp only [commitTypes, List.mem_map, List.mem_cons, List.mem_singleton] at hty
  rcases hty with ⟨a, ha, rfl⟩
  rcases ha with rfl|rfl|rfl|rfl|rfl|rfl|rfl|rfl|rfl|rfl|h <;>
    first
      | exact absurd h (by simp)
      | decide

/-- A lowercase ASCII letter is none of the markup or whitespace
characters the cleanup acts on. -/
theorem isaz_not_special {c : Char} (h : isaz c = true) :
    ¬(c = '<') ∧ ¬(c = tickC) ∧ jsWS c = false ∧ isQuote c = false := by
  have hn := isaz_toNat h
  have hne : ∀ (x : Char), x.toNat < 97 → ¬(c = x) := by
    intro x hx heq
    subst heq
    omega
  refine ⟨hne _ (by decide), hne _ (by decide), ?_, ?_⟩
  · simp [jsWS, hne ' ' (by decide), hne '\t' (by decide), hne '\n' (by decide),
      hne '\r' (by decide), hne '\x0b' (by decide), hne '\x0c' (by decide)]
  · simp [isQuote, hne '\x22' (by decide), hne '\x27' (by decide)]

theorem cleanDescB_spec {d : List Char} (h : cleanDescB d = true) :
    ¬(d = []) ∧ (∀ c ∈ d, ¬(c = '<') ∧ ¬(c = tickC) ∧ isNL c = false) ∧
      jsWS (d.headD 'x') = false ∧ jsWS (d.getLastD 'x') = false ∧
      isQuote (d.getLastD 'x') = false := by
  have hne : ¬(d = []) := by
    intro hh
    rw [hh] at h
    exact absurd h (by decide)
  rw [cleanDescB] at h
  simp only [Bool.and_eq_true, Bool.not_eq_true', List.all_eq_true,
    decide_eq_false_iff_not] at h
  obtain ⟨⟨⟨⟨_, h2⟩, h3⟩, h4⟩, h5⟩ := h
  refine ⟨hne, fun c hc => ⟨(h2 c hc).1.1, (h2 c hc).1.2, (h2 c hc).2⟩, ?_, ?_, ?_⟩
  · cases d with
    | nil => exact absurd rfl hne
    | cons c cs => exact h3
  · rw [getLastD_irrel hne 'x' ' ']
    exact h4
  · rw [getLastD_irrel hne 'x' ' ']
    exact h5

theorem cleanScopeB_spec {sc : List Char} (h : cleanScopeB sc = true) :
    ∀ c ∈ sc, ¬(c = ')') ∧ ¬(c = '<') ∧ ¬(c = tickC) := by
  rw [cleanScopeB] at h
  simp only [List.all_eq_true, Bool.and_eq_true, Bool.not_eq_true',
    decide_eq_false_iff_not] at h
  intro c hc
  exact ⟨(h c hc).1.1, (h c hc).1.2, (h c hc).2⟩

theorem headD_append_left {a : List Char} (ha : ¬(a = [])) (b : List Char)
    (x : Char) : (a ++ b).headD x = a.headD x := by
  cases a with
  | nil => exact absurd rfl ha
  | cons c cs => rfl

/-- The commit cleanup fixes a message `ty(sc): d` with a conventional
type, a clean scope and a clean description. -/
theorem cleanupMsg_conv {ty sc d : List Char} (hty : ty ∈ commitTypes)
    (hsc : cleanScopeB sc = true) (hd : cleanDescB d = true) :
    cleanupMsg (ty ++ '(' :: (sc ++ ')' :: ':' :: ' ' :: d))
      = ty ++ '(' :: (sc ++ ')' :: ':' :: ' ' :: d) := by
  obtain ⟨hdne, hdall, hdh, hdl1, hdl2⟩ := cleanDescB_spec hd
  have hscall := cleanScopeB_spec hsc
  have htyaz := commitType_chars hty
  have htyne := commitType_ne_nil hty
  have hmem : ∀ c ∈ ty ++ '(' :: (sc ++ ')' :: ':' :: ' ' :: d),
      ¬(c = '<') ∧ ¬(c = tickC) := by
    intro c hc
    simp only [List.mem_append, List.mem_cons] at hc
    rcases hc with hc | rfl | hc | rfl | rfl | rfl | hc
    · exact ⟨(isaz_not_special (htyaz c hc)).1, (isaz_not_special (htyaz c hc)).2.1⟩
    · exact ⟨by decide, by decide⟩
    · exact ⟨(hscall c hc).2.1, (hscall c hc).2.2⟩
    · exact ⟨by decide, by decide⟩
    · exact ⟨by decide, by decide⟩
    · exact ⟨by decide, by decide⟩
    · exact ⟨(hdall c hc).1, (hdall c hc).2.1⟩
  have hlast : (ty ++ '(' :: (sc ++ ')' :: ':' :: ' ' :: d)).getLastD 'x'
      = d.getLastD 'x' := by
    rw [getLastD_append_right (by simp) _ 'x']
    rw [List.getLastD_cons]
    rw [getLastD_append_right (by simp) _ '(']
    rw [List.getLastD_cons, List.getLastD_cons, List.getLastD_cons]
    exact getLastD_irrel hdne ' ' 'x' ▸ (getLastD_irrel hdne 'x' ' ')
  have hhd : (ty ++ '(' :: (sc ++ ')' :: ':' :: ' ' :: d)).headD 'x'
      = ty.headD 'x' := headD_append_left htyne _ 'x'
  have htyhead : isaz (ty.headD 'x') = true := by
    cases ty with
    | nil => exact absurd rfl htyne
    | cons c cs => exact htyaz c (by simp)
  apply cleanupMsg_id
  · exact fun c hc => (hmem c hc).1
  · exact fun c hc => (hmem c hc).2
  · rw [hhd]
    exact (isaz_not_special htyhead).2.2.1
  · rw [hhd]
    exact (isaz_not_special htyhead).2.2.2
  · rw [hlast]
    exact hdl1
  · rw [hlast]
    exact hdl2

/-- The commit cleanup fixes a scopeless message `ty: d`. -/
theorem cleanupMsg_simple {ty d : List Char} (hty : ty ∈ commitTypes)
    (hd : cleanDescB d = true) :
    cleanupMsg (ty ++ ':' :: ' ' :: d) = ty ++ ':' :: ' ' :: d := by
  obtain ⟨hdne, hdall, hdh, hdl1, hdl2⟩ := cleanDescB_spec hd
  have htyaz := commitType_chars hty
  have htyne := commitType_ne_nil hty
  have hmem : ∀ c ∈ ty ++ ':' :: ' ' :: d, ¬(c = '<') ∧ ¬(c = tickC) := by
    intro c hc
    simp only [List.mem_append, List.mem_cons] at hc
    rcases hc with hc | rfl | rfl | hc
    · exact ⟨(isaz_not_special (htyaz c hc)).1, (isaz_not_special (htyaz c hc)).2.1⟩
    · exact ⟨by decide, by decide⟩
    · exact ⟨by decide, by decide⟩
    · exact ⟨(hdall c hc).1, (hdall c hc).2.1⟩
  have hlast : (ty ++ ':' :: ' ' :: d).getLastD 'x' = d.getLastD 'x' := by
    rw [getLastD_append_right (by simp) _ 'x']
    rw [List.getLastD_cons, List.getLastD_cons]
    exact getLastD_irrel hdne ' ' 'x' ▸ (getLastD_irrel hdne 'x' ' ')
  have hhd : (ty ++ ':' :: ' ' :: d).headD 'x' = ty.headD 'x' :=
    headD_append_left htyne _ 'x'
  have htyhead : isaz (ty.headD 'x') = true := by
    cases ty with
    | nil => exact absurd rfl htyne
    | cons c cs => exact htyaz c (by simp)
  apply cleanupMsg_id
  · exact fun c hc => (hmem c hc).1
  · exact fun c hc => (hmem c hc).2
  · rw [hhd]
    exact (isaz_not_special htyhead).2.2.1
  · rw [hhd]
    exact (isaz_not_special htyhead).2.2.2
  · rw [hlast]
    exact hdl1
  · rw [hlast]
    exact hdl2

/-- Scope re-derivation on a message `ty(sc): d`: whatever the scope
is, it is replaced by the upper-cased ticket (a ticket-shaped scope via
the first branch, any other scope via the second; the keep branch is
unreachable because an exactly ticket-shaped scope is also
case-insensitively ticket-shaped). -/
theorem normCommit_conv {ty sc d tk : List Char} (hty : ty ∈ commitTypes)
    (hsc : cleanScopeB sc = true) (hd : cleanDescB d = true) (htk : ¬(tk = [])) :
    normCommitL (ty ++ '(' :: (sc ++ ')' :: ':' :: ' ' :: d)) (some tk)
      = rebuildMsg ty (upperL tk) d := by
  obtain ⟨hdne, hdall, hdh, _, _⟩ := cleanDescB_spec hd
  have hscP : ∀ c ∈ sc, ¬(c = ')') := fun c hc => (cleanScopeB_spec hsc c hc).1
  have hnl : ∀ c ∈ d, isNL c = false := fun c hc => (hdall c hc).2.2
  rw [normCommitL]
  rw [if_neg (by simp [isEmpty_false_of_ne htk])]
  rw [cleanupMsg_conv hty hsc hd]
  rw [conventionalMatchC_scope hty hscP hdne hdh hnl]
  dsimp only
  by_cases hts : ticketShape isLetterB sc = true
  · rw [if_pos hts, lowerL_commitType hty]
  · have haz : ticketShape isAZ sc = false := by
      cases h : ticketShape isAZ sc
      · rfl
      · exact absurd (ticketShape_mono h) hts
    rw [if_neg hts, if_pos (by simp [haz]), lowerL_commitType hty]

/-- Scope insertion on a scopeless message `ty: d`. -/
theorem normCommit_simple {ty d tk : List Char} (hty : ty ∈ commitTypes)
    (hd : cleanDescB d = true) (htk : ¬(tk = [])) :
    normCommitL (ty ++ ':' :: ' ' :: d) (some tk)
      = rebuildMsg ty (upperL tk) d := by
  obtain ⟨hdne, hdall, hdh, _, _⟩ := cleanDescB_spec hd
  have hnl : ∀ c ∈ d, isNL c = false := fun c hc => (hdall c hc).2.2
  rw [normCommitL]
  rw [if_neg (by simp [isEmpty_false_of_ne htk])]
  rw [cleanupMsg_simple hty hd]
  rw [conventionalMatchC_noscope hty hdne hdh hnl]
  dsimp only
  rw [lowerL_commitType hty]

/-- A canonical conventional message for the ticket is a fixed point of
the commit normalizer. -/
theorem normCommit_canon {tk m : List Char} (htk : ¬(tk = []))
    (h : canonCommitFor (upperL tk) m = true) :
    normCommitL m (some tk) = m := by
  rw [canonCommitFor] at h
  simp only [Bool.and_eq_true, List.any_eq_true] at h
  obtain ⟨⟨⟨ty, hty, hpre, hdesc⟩, hscc⟩, _⟩ := h
  obtain ⟨t, ht⟩ := List.isPrefixOf_iff_prefix.mp hpre
  have hlen : (ty ++ '(' :: (upperL tk ++ [')', ':', ' '])).length
      = ty.length + (upperL tk).length + 4 := by
    simp
    omega
  have hdrop : m.drop (ty.length + (upperL tk).length + 4) = t := by
    rw [← ht, ← hlen, List.drop_left]
  rw [hdrop] at hdesc
  have hm : m = ty ++ '(' :: (upperL tk ++ ')' :: ':' :: ' ' :: t) := by
    rw [← ht]
    simp
  rw [hm]
  rw [normCommit_conv hty hscc hdesc htk]
  rw [rebuildMsg]

/-! ## Supporting lemmas: target-branch fallback and rule extraction -/

/-- A successful priority-loop lookup returns the first entry of the
priority list contained in the available set. -/
theorem fallbackLoop_some {avail : List String} : ∀ {l : List String} {b : String},
    fallbackLoop avail l = some b →
    ∃ pre suf, l = pre ++ b :: suf ∧ (∀ b' ∈ pre, avail.contains b' = false) ∧
      avail.contains b = true
  | [], b, h => absurd h (by rw [fallbackLoop]; exact Option.noConfusion)
  | x :: rest, b, h => by
    rw [fallbackLoop] at h
    by_cases hcx : avail.contains x = true
    · rw [if_pos hcx] at h
      obtain rfl : x = b := Option.some.inj h
      exact ⟨[], rest, rfl, by simp, hcx⟩
    · rw [if_neg hcx] at h
      obtain ⟨pre, suf, heq, hpre, hb⟩ := fallbackLoop_some h
      refine ⟨x :: pre, suf, by simp [heq], ?_, hb⟩
      intro b' hb'
      rcases List.mem_cons.mp hb' with rfl | hmm
      · exact Bool.eq_false_iff.mpr hcx
      · exact hpre b' hmm

/-- A failed priority-loop lookup means no priority entry is
available. -/
theorem fallbackLoop_none {avail : List String} : ∀ {l : List String},
    fallbackLoop avail l = none → ∀ b ∈ l, avail.contains b = false
  | [], _, b, hb => absurd hb (by simp)
  | x :: rest, h, b, hb => by
    rw [fallbackLoop] at h
    by_cases hcx : avail.contains x = true
    · rw [if_pos hcx] at h
      exact Option.noConfusion h
    · rw [if_neg hcx] at h
      rcases List.mem_cons.mp hb with rfl | hmm
      · exact Bool.eq_false_iff.mpr hcx
      · exact fallbackLoop_none h b hmm

theorem branchStep1_inv {compile : List Char → Option (String → Bool)}
    (hc : ∀ p, (compile p).isSome = true) (content : List Char) :
    (branchStep1 compile content).pattern.isSome
      = (branchStep1 compile content).regex.isSome := by
  rw [branchStep1]
  cases h : keyQuoteMatch "branch".data content
  · rfl
  · simp [hc]

theorem branchStep2_inv {compile : List Char → Option (String → Bool)}
    (hc : ∀ p, (compile p).isSome = true) (content : List Char)
    {r : BranchPatterns} (hr : r.pattern.isSome = r.regex.isSome) :
    (branchStep2 compile content r).pattern.isSome
      = (branchStep2 compile content r).regex.isSome := by
  rw [branchStep2]
  cases h : branchTildeMatch content
  · exact hr
  · dsimp only
    split
    · simp [hc]
    · exact hr

theorem branchStep3_inv (content : List Char)
    {r : BranchPatterns} (hr : r.pattern.isSome = r.regex.isSome) :
    (branchStep3 content r).pattern.isSome
      = (branchStep3 content r).regex.isSome := by
  rw [branchStep3]
  cases h : typesKwMatch content
  · exact hr
  · simpa using hr

theorem branchStep4_inv (content : List Char)
    {r : BranchPatterns} (hr : r.pattern.isSome = r.regex.isSome) :
    (branchStep4 content r).pattern.isSome
      = (branchStep4 content r).regex.isSome := by
  rw [branchStep4]
  cases h : r.types
  · dsimp only
    split
    · exact hr
    · simpa using hr
  · exact hr

theorem branchStep5_inv {compileI : List Char → Option (String → Bool)}
    (hcI : ∀ p, (compileI p).isSome = true) (content : List Char)
    {r : BranchPatterns} (hr : r.pattern.isSome = r.regex.isSome) :
    (branchStep5 compileI content r).pattern.isSome
      = (branchStep5 compileI content r).regex.isSome := by
  rw [branchStep5]
  split
  · split
    · simp [hcI]
    · exact hr
  · exact hr

/-- With total compile functions, branch extraction sets the pattern
and the compiled regex together. -/
theorem extractBranch_inv {compile compileI : List Char → Option (String → Bool)}
    (hc : ∀ p, (compile p).isSome = true) (hcI : ∀ p, (compileI p).isSome = true)
    (content : List Char) :
    (extractBranchNamePatterns compile compileI content).pattern.isSome
      = (extractBranchNamePatterns compile compileI content).regex.isSome := by
  rw [extractBranchNamePatterns]
  exact branchStep5_inv hcI content
    (branchStep4_inv content
      (branchStep3_inv content
        (branchStep2_inv hc content (branchStep1_inv hc content))))

theorem commitStep1_inv {compile : List Char → Option (String → Bool)}
    (hc : ∀ p, (compile p).isSome = true) (content : List Char) :
    (commitStep1 compile content).pattern.isSome
      = (commitStep1 compile content).regex.isSome := by
  rw [commitStep1]
  cases h : grepMatch content
  · rfl
  · simp [hc]

theorem commitStep2_inv {compile : List Char → Option (String → Bool)}
    (hc : ∀ p, (compile p).isSome = true) (content : List Char)
    {r : CommitPatterns} (hr : r.pattern.isSome = r.regex.isSome) :
    (commitStep2 compile content r).pattern.isSome
      = (commitStep2 compile content r).regex.isSome := by
  rw [commitStep2]
  split
  · cases h : keyQuoteMatch "commit".data content
    · exact hr
    · simp [hc]
  · exact hr

theorem commitStep3_inv {compile : List Char → Option (String → Bool)}
    (hc : ∀ p, (compile p).isSome = true) (content : List Char)
    {r : CommitPatterns} (hr : r.pattern.isSome = r.regex.isSome) :
    (commitStep3 compile content r).pattern.isSome
      = (commitStep3 compile content r).regex.isSome := by
  rw [commitStep3]
  split
  · cases h : commitTildeMatch content
    · exact hr
    · simp [hc]
  · exact hr

theorem commitStep4_inv {compileI : List Char → Option (String → Bool)}
    (hcI : ∀ p, (compileI p).isSome = true) (content : List Char)
    {r : CommitPatterns} (hr : r.pattern.isSome = r.regex.isSome) :
    (commitStep4 compileI content r).pattern.isSome
      = (commitStep4 compileI content r).regex.isSome := by
  rw [commitStep4]
  split
  · split
    · simp [hcI]
    · exact hr
  · exact hr

/-- With total compile functions, commit extraction sets the pattern
and the compiled regex together. -/
theorem extractCommit_inv {compile compileI : List Char → Option (String → Bool)}
    (hc : ∀ p, (compile p).isSome = true) (hcI : ∀ p, (compileI p).isSome = true)
    (content : List Char) :
    (extractCommitMessagePatterns compile compileI content).pattern.isSome
      = (extractCommitMessagePatterns compile compileI content).regex.isSome := by
  rw [extractCommitMessagePatterns]
  exact commitStep4_inv hcI content
    (commitStep3_inv hc content
      (commitStep2_inv hc content (commitStep1_inv hc content)))

/-- When all four commit strategies fail, commit extraction yields the
empty record — no default commit pattern is applied. -/
theorem commitPatterns_absent {compile compileI : List Char → Option (String → Bool)}
    {content : List Char}
    (h1 : grepMatch content = none)
    (h2 : keyQuoteMatch "commit".data content = none)
    (h3 : commitTildeMatch content = none)
    (h4 : containsSub "conventional-commit".data content = false)
    (h5 : containsSub "conventionalcommit".data content = false) :
    extractCommitMessagePatterns compile compileI content = {} := by
  rw [extractCommitMessagePatterns]
  rw [commitStep1, h1]
  rw [commitStep2, h2]
  rw [commitStep3, h3]
  rw [commitStep4]
  simp [h4, h5]

/-- A branch name the validator accepts is never protected (the
protected check runs before — and regardless of — the regex test). -/
theorem valid_not_protected {b : String} {rules : GitCheckRules}
    (h : (validateBranchName b rules).valid = true) :
    isProtectedBranch b = false := by
  cases hb : isProtectedBranch b with
  | false => rfl
  | true =>
    rw [validateBranchName, if_pos hb] at h
    exact absurd h (by simp)

/-! ## Supporting lemmas: the workflow trace -/

/-- If a list decomposes both as `pre ++ rest` and as `l1 ++ ev :: l2`
with `ev` not occurring in `pre`, then all of `pre` sits inside `l1`. -/
theorem prefix_mem_of_split {α : Type} {L pre rest l1 l2 : List α} {ev : α}
    (hL : L = pre ++ rest) (hdec : L = l1 ++ ev :: l2) (hev : ev ∉ pre) :
    ∀ x ∈ pre, x ∈ l1 := by
  have hp1 : pre <+: L := ⟨rest, hL.symm⟩
  have hp2 : l1 <+: L := ⟨ev :: l2, hdec.symm⟩
  rcases List.prefix_or_prefix_of_prefix hp1 hp2 with hp | hp
  · exact fun x hx => hp.subset hx
  · obtain ⟨t, ht⟩ := hp
    cases t with
    | nil =>
      have hple : pre = l1 := by simpa using ht.symm
      intro x hx
      rw [← hple]
      exact hx
    | cons a t' =>
      exfalso
      apply hev
      have hL2 : l1 ++ ev :: l2 = l1 ++ (a :: (t' ++ rest)) := by
        rw [← hdec, hL, ← ht]
        simp
      have htails : ev :: l2 = a :: (t' ++ rest) := by
        exact List.append_cancel_left hL2
      have heva : ev = a := (List.cons.inj htails).1
      rw [heva, ← ht]
      simp

/-- Every event the polling loop emits is a fetch or a 2000 ms sleep. -/
theorem pollFrom_events {f : Nat → Nat} : ∀ (fuel r cnt : Nat),
    ∀ ev ∈ (pollFrom f fuel r cnt).1,
      (∃ k, ev = WEvent.fetchChanges k) ∨ ev = WEvent.sleep 2000
  | 0, _, _, ev, h => absurd h (by rw [pollFrom]; exact List.not_mem_nil ev)
  | fuel + 1, r, cnt, ev, h => by
    rw [pollFrom] at h
    split at h
    · rcases List.mem_cons.mp h with rfl | h2
      · exact Or.inr rfl
      rcases List.mem_cons.mp h2 with rfl | h3
      · exact Or.inl ⟨r + 1, rfl⟩
      · exact pollFrom_events fuel (r + 1) (f (r + 1)) ev h3
    · exact absurd h (List.not_mem_nil ev)

/-- The polling loop performs at most `fuel` further fetches. -/
theorem pollFrom_fetch_count {f : Nat → Nat} : ∀ (fuel r cnt : Nat),
    ((pollFrom f fuel r cnt).1.filter isFetchEv).length ≤ fuel
  | 0, _, _ => by rw [pollFrom]; simp
  | fuel + 1, r, cnt => by
    rw [pollFrom]
    split
    · dsimp only
      rw [List.filter_cons, List.filter_cons]
      have hrec := pollFrom_fetch_count (f := f) fuel (r + 1) (f (r + 1))
      have hs : isFetchEv (WEvent.sleep 2000) = false := rfl
      have hf : isFetchEv (WEvent.fetchChanges (r + 1)) = true := rfl
      simp [hs, hf]
      omega
    · simp

/-- The final count of the polling loop is the initial count or the
result of one of the re-fetches. -/
theorem pollFrom_result {f : Nat → Nat} : ∀ (fuel r cnt : Nat),
    (pollFrom f fuel r cnt).2 = cnt ∨
      ∃ k, r < k ∧ k ≤ r + fuel ∧ (pollFrom f fuel r cnt).2 = f k
  | 0, _, _ => Or.inl rfl
  | fuel + 1, r, cnt => by
    rw [pollFrom]
    split
    · dsimp only
      rcases pollFrom_result fuel (r + 1) (f (r + 1)) with h | ⟨k, hk1, hk2, hk3⟩
      · exact Or.inr ⟨r + 1, by omega, by omega, h⟩
      · exact Or.inr ⟨k, by omega, by omega, hk3⟩
    · exact Or.inl rfl

/-- The polling loop on an all-zero change feed: five sleep/fetch
rounds, final count zero. -/
theorem pollFrom_allzero {f : Nat → Nat} (hz : ∀ k, k ≤ 5 → f k = 0) :
    pollFrom f 5 0 (f 0) =
      ([WEvent.sleep 2000, WEvent.fetchChanges 1, WEvent.sleep 2000,
        WEvent.fetchChanges 2, WEvent.sleep 2000, WEvent.fetchChanges 3,
        WEvent.sleep 2000, WEvent.fetchChanges 4, WEvent.sleep 2000,
        WEvent.fetchChanges 5], 0) := by
  have h0 := hz 0 (by omega)
  have h1 := hz 1 (by omega)
  have h2 := hz 2 (by omega)
  have h3 := hz 3 (by omega)
  have h4 := hz 4 (by omega)
  have h5 := hz 5 (by omega)
  simp [pollFrom, h0, h1, h2, h3, h4, h5]

/-- A canonical branch name matches the spec's branch grammar. -/
theorem canonBranch_specPattern {s : List Char} (h : canonBranch s = true) :
    specBranchPattern s = true := by
  obtain ⟨t, L, D, d, hs, ht, hta, hL, hLa, hD, hDa, hd, hda, _, _⟩ :=
    canonBranch_decomp h
  rw [hs]
  exact specBranchPattern_build ht hta hL hLa hD hDa hd hda

/-- Every event of the review tail is the review call, the summary
note, an inline discussion or the completion dialog. -/
theorem reviewTail_events (e : WEnv) : ∀ ev ∈ reviewTail e,
    ev = WEvent.reviewCall ∨ ev = WEvent.postNote ∨
      (∃ i, ev = WEvent.postDiscussion i) ∨ ev = WEvent.workflowDone := by
  intro ev h
  rw [reviewTail] at h
  rcases List.mem_cons.mp h with rfl | h2
  · exact Or.inl rfl
  split at h2
  · exact absurd h2 (List.not_mem_nil ev)
  · rcases List.mem_cons.mp h2 with rfl | h3
    · exact Or.inr (Or.inl rfl)
    rcases List.mem_append.mp h3 with h4 | h4
    · obtain ⟨ic, _, hev⟩ := List.mem_flatMap.mp h4
      split at hev
      · split at hev
        · exact Or.inr (Or.inr (Or.inl ⟨ic.1, List.mem_singleton.mp hev⟩))
        · exact absurd hev (List.not_mem_nil ev)
      · exact absurd hev (List.not_mem_nil ev)
    · exact Or.inr (Or.inr (Or.inr (List.mem_singleton.mp h4)))

/-- Where an event of the changes stage can come from. -/
theorem changesBlock_mem {e : WEnv} {ev : WEvent} (h : ev ∈ changesBlock e) :
    ev = WEvent.fetchChanges 0 ∨
    ev ∈ (pollFrom e.changesAt 5 0 (e.changesAt 0)).1 ∨
    ((pollFrom e.changesAt 5 0 (e.changesAt 0)).2 = 0 ∧
        (ev = WEvent.warnNoChanges ∨ ev = WEvent.openExternal)) ∨
    (¬((pollFrom e.changesAt 5 0 (e.changesAt 0)).2 = 0) ∧ ev ∈ reviewTail e) := by
  rw [changesBlock] at h
  rcases List.mem_cons.mp h with rfl | h2
  · exact Or.inl rfl
  rcases List.mem_append.mp h2 with h3 | h3
  · exact Or.inr (Or.inl h3)
  by_cases hz : (pollFrom e.changesAt 5 0 (e.changesAt 0)).2 = 0
  · rw [if_pos hz] at h3
    rcases List.mem_cons.mp h3 with rfl | h4
    · exact Or.inr (Or.inr (Or.inl ⟨hz, Or.inl rfl⟩))
    · exact Or.inr (Or.inr (Or.inl ⟨hz, Or.inr (List.mem_singleton.mp h4)⟩))
  · rw [if_neg hz] at h3
    exact Or.inr (Or.inr (Or.inr ⟨hz, h3⟩))

/-- The changes stage performs at most six fetches: the initial one
plus at most five retries. -/
theorem changesBlock_fetch_bound (e : WEnv) :
    ((changesBlock e).filter isFetchEv).length ≤ 6 := by
  rw [changesBlock]
  have h1 := pollFrom_fetch_count (f := e.changesAt) 5 0 (e.changesAt 0)
  have h2 : ((if (pollFrom e.changesAt 5 0 (e.changesAt 0)).2 = 0 then
      [WEvent.warnNoChanges, WEvent.openExternal] else reviewTail e).filter
        isFetchEv).length = 0 := by
    split
    · rfl
    · rw [List.length_eq_zero]
      rw [List.filter_eq_nil_iff]
      intro a ha
      rcases reviewTail_events e a ha with rfl | rfl | ⟨i, rfl⟩ | rfl <;> simp [isFetchEv]
  rw [List.filter_cons]
  have hf : isFetchEv (WEvent.fetchChanges 0) = true := rfl
  rw [hf, if_pos rfl, List.length_cons, List.filter_append, List.length_append]
  omega

/-- Every sleep of the changes stage is the 2-second inter-attempt
delay. -/
theorem changesBlock_sleep (e : WEnv) :
    ∀ ms, WEvent.sleep ms ∈ changesBlock e → ms = 2000 := by
  intro ms h
  rcases changesBlock_mem h with h | h | ⟨_, h | h⟩ | ⟨_, h⟩
  · exact absurd h (by simp)
  · rcases pollFrom_events 5 0 (e.changesAt 0) (WEvent.sleep ms) h with ⟨k, hk⟩ | hk
    · exact absurd hk (by simp)
    · simpa using hk
  · exact absurd h (by simp)
  · exact absurd h (by simp)
  · rcases reviewTail_events e _ h with hk | hk | ⟨i, hk⟩ | hk <;> simp at hk

/-- A review call in the changes stage means some fetch within the
five retries observed a non-zero change count. -/
theorem changesBlock_review (e : WEnv) (h : WEvent.reviewCall ∈ changesBlock e) :
    ∃ k, k ≤ 5 ∧ ¬(e.changesAt k = 0) := by
  rcases changesBlock_mem h with hk | hk | ⟨_, hk | hk⟩ | ⟨hz, _⟩
  · exact absurd hk (by simp)
  · rcases pollFrom_events 5 0 (e.changesAt 0) WEvent.reviewCall hk with ⟨k, hkk⟩ | hkk <;> simp at hkk
  · exact absurd hk (by simp)
  · exact absurd hk (by simp)
  · rcases pollFrom_result (f := e.changesAt) 5 0 (e.changesAt 0) with hr | ⟨k, hk1, hk2, hr⟩
    · exact ⟨0, by omega, fun hzz => hz (by rw [hr, hzz])⟩
    · exact ⟨k, by omega, fun hzz => hz (by rw [hr, hzz])⟩

/-- The changes stage on an all-zero change feed: six fetches, five
sleeps, then the warning and the external link — an early
completion. -/
theorem changesBlock_allzero {e : WEnv} (hz : ∀ k, k ≤ 5 → e.changesAt k = 0) :
    changesBlock e =
      [WEvent.fetchChanges 0, WEvent.sleep 2000, WEvent.fetchChanges 1,
       WEvent.sleep 2000, WEvent.fetchChanges 2, WEvent.sleep 2000,
       WEvent.fetchChanges 3, WEvent.sleep 2000, WEvent.fetchChanges 4,
       WEvent.sleep 2000, WEvent.fetchChanges 5, WEvent.warnNoChanges,
       WEvent.openExternal] := by
  rw [changesBlock, pollFrom_allzero hz]
  rfl

/-! ## The claims -/

/-- C2 (amended).  The claim as stated — every raw output containing
reasoning tags, fences or surrounding quotes normalizes to an
artifact-free name matching the branch grammar — is refuted by
`claim_C2_counterexample` (a doubly-quoted raw output keeps one quote,
because the quote-stripping regex removes a single leading and a
single trailing quote).  Amended: for a raw output consisting of a
reasoning-tag block followed by an inline-code-wrapped canonical
branch name, and for a singly-quoted canonical branch name, the
normalizer returns exactly the canonical name, which is free of tag,
backtick and quote characters and matches the spec's pattern; the
spec's example input normalizes to `feature/ABC-123-add-login` as
stated. -/
theorem claim_C2_branch_artifact_stripping (t b : List Char)
    (ht : ∀ c ∈ t, ¬(c = '<')) (hb : canonBranch b = true) :
    normBranchL
        ("<think>".data ++ (t ++ ("</think>".data ++ (tickC :: (b ++ [tickC])))))
      = b ∧
    normBranchL ('\x22' :: (b ++ ['\x22'])) = b ∧
    specBranchPattern b = true ∧
    (∀ c ∈ b, ¬(c = '<') ∧ ¬(c = tickC) ∧ isQuote c = false) ∧
    normalizeBranchName "<think>ok</think>\x60feature/ABC-123-Add Login\x60"
      = "feature/ABC-123-add-login" := by
  have hchars := canonBranch_chars hb
  have hbne := canonBranch_ne_nil hb
  refine ⟨?_, ?_, canonBranch_specPattern hb, ?_, ?_⟩
  · rw [normBranchL, cleanupBranch_think_wrap ht hchars hbne]
    exact shapeBranch_canon hb
  · rw [normBranchL, cleanupBranch_quote_wrap hchars]
    exact shapeBranch_canon hb
  · intro c hc
    exact ⟨canonChar_not_lt (hchars c hc), canonChar_not_tick (hchars c hc),
      canonChar_not_quote (hchars c hc)⟩
  · decide

/-- C2, counterexample to the claim as stated: the raw output
`""feature/ABC-123-x"` carries surrounding quotes, yet the normalized
result still contains a double quote and fails the required pattern —
the quote-stripping step removes only one leading and one trailing
quote. -/
theorem claim_C2_counterexample :
    ('\x22' ∈ normBranchL ('\x22' :: '\x22' :: ("feature/ABC-123-x".data ++ ['\x22'])))
      ∧ specBranchPattern
          (normBranchL ('\x22' :: '\x22' :: ("feature/ABC-123-x".data ++ ['\x22'])))
        = false := by
  constructor
  · decide
  · decide

theorem claim_C2_witness :
    normBranchL
        ("<think>".data ++ ("ok".data ++ ("</think>".data ++
          (tickC :: ("feature/ABC-123-add-login".data ++ [tickC])))))
      = "feature/ABC-123-add-login".data ∧
    specBranchPattern "feature/ABC-123-add-login".data = true := by
  have h := claim_C2_branch_artifact_stripping "ok".data
    "feature/ABC-123-add-login".data (by decide) (by decide)
  exact ⟨h.1, h.2.2.1⟩

/-- C5.  Commit scope correction with a required ticket: on a message
`ty(sc): d` with a conventional type, a scope free of parentheses and
markup, and a clean description, the scope — whatever it is — is
replaced by the upper-cased ticket; on a scopeless `ty: d` the ticket
is inserted as the scope.  The spec's two examples are the witness. -/
theorem claim_C5_commit_scope_correction (ty sc d tk : List Char)
    (hty : ty ∈ commitTypes) (hsc : cleanScopeB sc = true)
    (hd : cleanDescB d = true) (htk : ¬(tk = [])) :
    normCommitL (ty ++ '(' :: (sc ++ ')' :: ':' :: ' ' :: d)) (some tk)
      = rebuildMsg ty (upperL tk) d ∧
    normCommitL (ty ++ ':' :: ' ' :: d) (some tk) = rebuildMsg ty (upperL tk) d :=
  ⟨normCommit_conv hty hsc hd htk, normCommit_simple hty hd htk⟩

theorem claim_C5_witness :
    normalizeCommitMessage "fix(xyz-1): bug" (some "ABC-123") = "fix(ABC-123): bug" ∧
    normalizeCommitMessage "fix: bug" (some "ABC-123") = "fix(ABC-123): bug" := by
  have h := claim_C5_commit_scope_correction "fix".data "xyz-1".data "bug".data
    "ABC-123".data (by decide) (by decide) (by decide) (by decide)
  constructor
  · exact congrArg (fun l => (⟨l⟩ : String)) (h.1.trans (by decide))
  · exact congrArg (fun l => (⟨l⟩ : String)) (h.2.trans (by decide))

/-- C9 (amended).  The claim as stated — the branch and commit
normalizations are idempotent on every string — is refuted by
`claim_C9_counterexample`: a doubly-quoted raw output loses one quote
layer per pass, so a second pass changes the result again.  Amended:
both normalizations are idempotent on every input whose first pass
produces a canonical result — a canonical branch name, resp. a
canonical conventional commit message for the provided ticket — which
is the situation the spec describes (an output that satisfied the rule
set). -/
theorem claim_C9_normalizer_idempotence (s m tk : List Char) (htk : ¬(tk = [])) :
    (canonBranch (normBranchL s) = true →
      normBranchL (normBranchL s) = normBranchL s) ∧
    (canonCommitFor (upperL tk) (normCommitL m (some tk)) = true →
      normCommitL (normCommitL m (some tk)) (some tk) = normCommitL m (some tk)) :=
  ⟨fun h => normBranch_canon h, fun h => normCommit_canon htk h⟩

/-- C9, counterexample to the claim as stated: normalizing
`""a"` yields `"a` (one quote layer stripped), and normalizing that
output again yields `a` — the second pass changes the result. -/
theorem claim_C9_counterexample :
    ¬(normBranchL (normBranchL ('\x22' :: '\x22' :: 'a' :: ['\x22']))
        = normBranchL ('\x22' :: '\x22' :: 'a' :: ['\x22'])) := by
  decide

theorem claim_C9_witness :
    normBranchL (normBranchL "feature/ABC-123-login".data)
      = normBranchL "feature/ABC-123-login".data ∧
    normCommitL (normCommitL "feat(ABC-123): add login".data (some "abc-123".data))
        (some "abc-123".data)
      = normCommitL "feat(ABC-123): add login".data (some "abc-123".data) := by
  have h := claim_C9_normalizer_idempotence "feature/ABC-123-login".data
    "feat(ABC-123): add login".data "abc-123".data (by decide)
  exact ⟨h.1 (by decide), h.2 (by decide)⟩

/-- C3.  When the model's answer is absent, unparsable, or names a
branch outside the available set, the selector returns the
deterministic fallback: the first of `develop > development > dev >
main > master` contained in the available set, confidence `medium`;
when none is available, the configured default with confidence `low`.
Either way the result names an available branch or the default. -/
theorem claim_C3_target_branch_fallback (parsed : Option ParsedTargetAnswer)
    (avail : List String) (dfl : String)
    (h : parsed = none ∨
      ∃ r, parsed = some r ∧ avail.contains r.targetBranch = false) :
    selectTargetBranchDecision parsed avail dfl = fallbackTargetBranch avail dfl ∧
    (∀ b, fallbackLoop avail priorityOrder = some b →
      (fallbackTargetBranch avail dfl).targetBranch = b ∧
      (fallbackTargetBranch avail dfl).confidence = Confidence.medium ∧
      avail.contains b = true ∧
      ∃ pre suf, priorityOrder = pre ++ b :: suf ∧
        ∀ b' ∈ pre, avail.contains b' = false) ∧
    (fallbackLoop avail priorityOrder = none →
      (fallbackTargetBranch avail dfl).targetBranch = dfl ∧
      (fallbackTargetBranch avail dfl).confidence = Confidence.low ∧
      ∀ b ∈ priorityOrder, avail.contains b = false) ∧
    (avail.contains (selectTargetBranchDecision parsed avail dfl).targetBranch = true ∨
      (selectTargetBranchDecision parsed avail dfl).targetBranch = dfl) := by
  have hsel : selectTargetBranchDecision parsed avail dfl
      = fallbackTargetBranch avail dfl := by
    rcases h with rfl | ⟨r, rfl, hr⟩
    · rfl
    · rw [selectTargetBranchDecision]
      rw [hr]
      rfl
  refine ⟨hsel, ?_, ?_, ?_⟩
  · intro b hb
    obtain ⟨pre, suf, hps, hpre, hcb⟩ := fallbackLoop_some hb
    rw [fallbackTargetBranch, hb]
    exact ⟨rfl, rfl, hcb, pre, suf, hps, hpre⟩
  · intro hn
    rw [fallbackTargetBranch, hn]
    exact ⟨rfl, rfl, fallbackLoop_none hn⟩
  · rw [hsel, fallbackTargetBranch]
    cases hfb : fallbackLoop avail priorityOrder with
    | none => exact Or.inr rfl
    | some b =>
      obtain ⟨_, _, _, _, hcb⟩ := fallbackLoop_some hfb
      exact Or.inl hcb

theorem claim_C3_witness :
    selectTargetBranchDecision (some { targetBranch := "staging" })
        ["main", "develop"] "main"
      = { targetBranch := "develop", confidence := Confidence.medium,
          reasoning := "Fallback selection: develop (priority-based)" } ∧
    ["main", "develop"].contains
        (selectTargetBranchDecision (some { targetBranch := "staging" })
          ["main", "develop"] "main").targetBranch = true := by
  have h := claim_C3_target_branch_fallback (some { targetBranch := "staging" })
    ["main", "develop"] "main" (Or.inr ⟨_, rfl, by decide⟩)
  constructor
  · exact h.1.trans (by decide)
  · rcases h.2.2.2 with hc | hd
    · exact hc
    · rw [hd]
      decide

/-- C4 (amended).  The claim as stated — pattern and compiled-regex
fields are always both present or both absent — is refuted by
`claim_C4_counterexample`: the extraction assigns the pattern string
and the compiled regex in separate statements, so a pattern string
whose compilation fails (a thrown `new RegExp`, modelled by the
compile parameter returning `none`) leaves the pattern set with no
regex.  Amended: whenever every pattern string compiles (the compile
parameters are total), the invariant does hold for both the branch
and the commit pair, for every file input. -/
theorem claim_C4_regex_pair_invariant
    (compile compileI : List Char → Option (String → Bool))
    (hc : ∀ p, (compile p).isSome = true) (hcI : ∀ p, (compileI p).isSome = true)
    (file : Option String) :
    ((parseGitCheckRules compile compileI file).branchNamePattern.isSome
      = (parseGitCheckRules compile compileI file).branchNameRegex.isSome) ∧
    ((parseGitCheckRules compile compileI file).commitMessagePattern.isSome
      = (parseGitCheckRules compile compileI file).commitMessageRegex.isSome) := by
  cases file with
  | none => exact ⟨rfl, rfl⟩
  | some content =>
    rw [parseGitCheckRules]
    dsimp only
    split
    · exact ⟨rfl, rfl⟩
    · have hbinv := extractBranch_inv hc hcI content.data
      have hcinv := extractCommit_inv hc hcI content.data
      rcases hbp : (extractBranchNamePatterns compile compileI content.data).pattern
        with _ | p <;>
      rcases hcp : (extractCommitMessagePatterns compile compileI content.data).pattern
        with _ | q <;>
        rw [hbp] at hbinv <;> rw [hcp] at hcinv <;> simp_all

theorem claim_C4_counterexample :
    (parseGitCheckRules compileApprox compileApprox
        (some "stage: git-check\nbranch pattern \x22[\x22")).branchNamePattern.isSome
      = true ∧
    (parseGitCheckRules compileApprox compileApprox
        (some "stage: git-check\nbranch pattern \x22[\x22")).branchNameRegex.isNone
      = true := by
  constructor
  · decide
  · decide

theorem claim_C4_witness :
    ((parseGitCheckRules (fun _ => some (fun _ => false))
        (fun _ => some (fun _ => false))
        (some "stage: git-check\nbranch pattern \x22[\x22")).branchNamePattern.isSome
      = (parseGitCheckRules (fun _ => some (fun _ => false))
          (fun _ => some (fun _ => false))
          (some "stage: git-check\nbranch pattern \x22[\x22")).branchNameRegex.isSome) ∧
    ((parseGitCheckRules (fun _ => some (fun _ => false))
        (fun _ => some (fun _ => false))
        (some "stage: git-check\nbranch pattern \x22[\x22")).commitMessagePattern.isSome
      = (parseGitCheckRules (fun _ => some (fun _ => false))
          (fun _ => some (fun _ => false))
          (some "stage: git-check\nbranch pattern \x22[\x22")).commitMessageRegex.isSome) :=
  claim_C4_regex_pair_invariant (fun _ => some (fun _ => false))
    (fun _ => some (fun _ => false)) (fun _ => rfl) (fun _ => rfl)
    (some "stage: git-check\nbranch pattern \x22[\x22")

/-- C7.  `parseGitCheckRules` is a total function — it never throws to
its caller: a missing or unreadable CI file (the `none` input, which
the `try`/`catch` produces on any I/O failure) yields the zero-value
rule set, and so does any CI text containing neither the `git-check`
nor the `git_check` stage marker. -/
theorem claim_C7_parse_fail_open
    (compile compileI : List Char → Option (String → Bool)) :
    parseGitCheckRules compile compileI none
      = { branchNamePattern := none, branchNameRegex := none,
          commitMessagePattern := none, commitMessageRegex := none,
          allowedBranchTypes := none, requiresTicketNumber := none,
          commitRequiresTicketNumber := none, hasGitCheck := false } ∧
    ∀ content : String,
      containsSub "git-check".data content.data = false →
      containsSub "git_check".data content.data = false →
      parseGitCheckRules compile compileI (some content)
        = { branchNamePattern := none, branchNameRegex := none,
            commitMessagePattern := none, commitMessageRegex := none,
            allowedBranchTypes := none, requiresTicketNumber := none,
            commitRequiresTicketNumber := none, hasGitCheck := false } := by
  refine ⟨rfl, ?_⟩
  intro content h1 h2
  rw [parseGitCheckRules]
  simp [h1, h2]

theorem claim_C7_witness :
    parseGitCheckRules (fun _ => none) (fun _ => none) (some "stages:\n  - build")
      = { branchNamePattern := none, branchNameRegex := none,
          commitMessagePattern := none, commitMessageRegex := none,
          allowedBranchTypes := none, requiresTicketNumber := none,
          commitRequiresTicketNumber := none, hasGitCheck := false } :=
  (claim_C7_parse_fail_open (fun _ => none) (fun _ => none)).2
    "stages:\n  - build" (by decide) (by decide)

/-- C8.  When the CI text contains the stage marker but none of the
four commit-pattern strategies matches (grep argument, commit
pattern/regex key, `=~` comparison, conventional-commit keyword), the
rule set has both commit fields absent — unlike branch extraction,
commit extraction applies no default pattern. -/
theorem claim_C8_no_commit_default
    (compile compileI : List Char → Option (String → Bool)) (content : String)
    (hm : (containsSub "git-check".data content.data
            || containsSub "git_check".data content.data) = true)
    (h1 : grepMatch content.data = none)
    (h2 : keyQuoteMatch "commit".data content.data = none)
    (h3 : commitTildeMatch content.data = none)
    (h4 : containsSub "conventional-commit".data content.data = false)
    (h5 : containsSub "conventionalcommit".data content.data = false) :
    (parseGitCheckRules compile compileI (some content)).commitMessagePattern = none ∧
    (parseGitCheckRules compile compileI (some content)).commitMessageRegex = none ∧
    (parseGitCheckRules compile compileI (some content)).hasGitCheck = true := by
  rw [parseGitCheckRules]
  dsimp only
  rw [hm]
  rw [if_neg (by simp)]
  rw [commitPatterns_absent h1 h2 h3 h4 h5]
  dsimp only
  split <;> exact ⟨rfl, rfl, rfl⟩

theorem claim_C8_witness :
    (parseGitCheckRules (fun _ => none) (fun _ => none)
        (some "stage: git-check")).commitMessagePattern = none ∧
    (parseGitCheckRules (fun _ => none) (fun _ => none)
        (some "stage: git-check")).commitMessageRegex = none ∧
    (parseGitCheckRules (fun _ => none) (fun _ => none)
        (some "stage: git-check")).hasGitCheck = true :=
  claim_C8_no_commit_default (fun _ => none) (fun _ => none) "stage: git-check"
    (by decide) (by decide) (by decide) (by decide) (by decide) (by decide)

/-- C10 (implicit).  The protected check lower-cases its input and
tests membership in exactly {main, master, dev, develop, development}
(so `MAIN` and `Develop` are protected), and the branch validator
accepts a name only if it is not protected — whatever the rule set's
regex is: a protected name is rejected regardless, and an accepted
name is never protected. -/
theorem claim_C10_protected_branch_set :
    (∀ b : String, isProtectedBranch b = true ↔
      (⟨lowerL b.data⟩ : String)
        ∈ ["main", "master", "dev", "develop", "development"]) ∧
    (∀ (b : String) (rules : GitCheckRules),
      (validateBranchName b rules).valid = true → isProtectedBranch b = false) ∧
    (∀ (b : String) (rules : GitCheckRules),
      isProtectedBranch b = true → (validateBranchName b rules).valid = false) := by
  refine ⟨?_, fun b rules h => valid_not_protected h, ?_⟩
  · intro b
    rw [isProtectedBranch, PROTECTED_BRANCHES]
    exact List.elem_iff
  · intro b rules h
    rw [validateBranchName, if_pos h]

theorem claim_C10_witness :
    isProtectedBranch "MAIN" = true ∧ isProtectedBranch "Develop" = true ∧
    (validateBranchName "MAIN" {}).valid = false ∧
    isProtectedBranch "feature/x" = false := by
  refine ⟨?_, ?_, ?_, ?_⟩
  · exact (claim_C10_protected_branch_set.1 "MAIN").mpr (by decide)
  · exact (claim_C10_protected_branch_set.1 "Develop").mpr (by decide)
  · exact claim_C10_protected_branch_set.2.2 "MAIN" {} (by decide)
  · exact claim_C10_protected_branch_set.2.1 "feature/x" {} (by decide)

/-- C6.  The changes stage polls with a bounded retry — at most six
fetches (the initial one plus five retries) with a 2000 ms sleep
before each retry; a review call happens only if some fetch within
the retries observed a non-zero changed-file count; and when every
fetch reports zero the stage is exactly the six fetches, the five
sleeps, the warning and the completion link — no review call, no
summary note, no inline discussion. -/
theorem claim_C6_changes_polling (e : WEnv) :
    ((changesBlock e).filter isFetchEv).length ≤ 6 ∧
    (∀ ms, WEvent.sleep ms ∈ changesBlock e → ms = 2000) ∧
    (WEvent.reviewCall ∈ changesBlock e → ∃ k, k ≤ 5 ∧ ¬(e.changesAt k = 0)) ∧
    ((∀ k, k ≤ 5 → e.changesAt k = 0) →
      changesBlock e =
        [WEvent.fetchChanges 0, WEvent.sleep 2000, WEvent.fetchChanges 1,
         WEvent.sleep 2000, WEvent.fetchChanges 2, WEvent.sleep 2000,
         WEvent.fetchChanges 3, WEvent.sleep 2000, WEvent.fetchChanges 4,
         WEvent.sleep 2000, WEvent.fetchChanges 5, WEvent.warnNoChanges,
         WEvent.openExternal] ∧
      WEvent.reviewCall ∉ changesBlock e ∧
      WEvent.postNote ∉ changesBlock e ∧
      (∀ i, WEvent.postDiscussion i ∉ changesBlock e)) := by
  refine ⟨changesBlock_fetch_bound e, changesBlock_sleep e, changesBlock_review e, ?_⟩
  intro hz
  have hcb := changesBlock_allzero hz
  refine ⟨hcb, ?_, ?_, ?_⟩
  · rw [hcb]
    decide
  · rw [hcb]
    decide
  · intro i
    rw [hcb]
    simp

theorem claim_C6_witness :
    changesBlock envMainZero =
      [WEvent.fetchChanges 0, WEvent.sleep 2000, WEvent.fetchChanges 1,
       WEvent.sleep 2000, WEvent.fetchChanges 2, WEvent.sleep 2000,
       WEvent.fetchChanges 3, WEvent.sleep 2000, WEvent.fetchChanges 4,
       WEvent.sleep 2000, WEvent.fetchChanges 5, WEvent.warnNoChanges,
       WEvent.openExternal] ∧
    WEvent.reviewCall ∉ changesBlock envMainZero ∧
    WEvent.postNote ∉ changesBlock envMainZero := by
  have h := claim_C6_changes_polling envMainZero
  have hz : ∀ k, k ≤ 5 → envMainZero.changesAt k = 0 := fun _ _ => rfl
  exact ⟨(h.2.2.2 hz).1, (h.2.2.2 hz).2.1, (h.2.2.2 hz).2.2.1⟩

/-- C1.  On a protected current branch, every staging or commit event
of the workflow trace is preceded by the creation (and checkout —
`createBranch(name, true)` is `checkoutLocalBranch`) of the freshly
generated branch name, which passed validation and is therefore not
protected; the traces that skip the branch creation (no changes, or a
generated name failing validation) contain no staging and no commit
event at all. -/
theorem claim_C1_protected_branch_gate (e : WEnv)
    (hp : isProtectedBranch e.currentBranch = true)
    (l1 l2 : List WEvent) (ev : WEvent)
    (hdec : fullWorkflowEvents e = l1 ++ ev :: l2)
    (hev : ev = WEvent.stageAll ∨ ∃ msg, ev = WEvent.gitCommit msg) :
    WEvent.createBranch (normalizeBranchName e.rawBranchLLM) ∈ l1 ∧
    (validateBranchName (normalizeBranchName e.rawBranchLLM) e.rules).valid = true ∧
    isProtectedBranch (normalizeBranchName e.rawBranchLLM) = false := by
  have hevmem : ev ∈ fullWorkflowEvents e := by
    rw [hdec]
    exact List.mem_append_right l1 (List.mem_cons_self ev l2)
  cases hch : e.hasChanges with
  | false =>
    exfalso
    rw [fullWorkflowEvents, hch] at hevmem
    rcases hev with rfl | ⟨msg, rfl⟩ <;> simp at hevmem
  | true =>
    by_cases hvalid :
        (validateBranchName (normalizeBranchName e.rawBranchLLM) e.rules).valid = true
    · refine ⟨?_, hvalid, valid_not_protected hvalid⟩
      cases ht : wfNeedsTicket e with
      | false =>
        have hL : fullWorkflowEvents e =
            [WEvent.parseRules, WEvent.getStatus, WEvent.getCurrentBranch,
             WEvent.getAllDiff, WEvent.llmGenBranch,
             WEvent.createBranch (normalizeBranchName e.rawBranchLLM)]
            ++ progressBlock e := by
          simp [fullWorkflowEvents, hch, ht, hp, hvalid]
        refine prefix_mem_of_split hL hdec ?_ _ (by simp)
        rcases hev with rfl | ⟨msg, rfl⟩ <;> simp
      | true =>
        have hL : fullWorkflowEvents e =
            [WEvent.parseRules, WEvent.getStatus, WEvent.getCurrentBranch,
             WEvent.inputTicket, WEvent.getAllDiff, WEvent.llmGenBranch,
             WEvent.createBranch (normalizeBranchName e.rawBranchLLM)]
            ++ progressBlock e := by
          simp [fullWorkflowEvents, hch, ht, hp, hvalid]
        refine prefix_mem_of_split hL hdec ?_ _ (by simp)
        rcases hev with rfl | ⟨msg, rfl⟩ <;> simp
    · exfalso
      have hvf : (validateBranchName (normalizeBranchName e.rawBranchLLM)
          e.rules).valid = false := Bool.eq_false_iff.mpr hvalid
      rw [fullWorkflowEvents, hch] at hevmem
      rcases hev with rfl | ⟨msg, rfl⟩ <;>
        cases ht : wfNeedsTicket e <;>
          simp [ht, hp, hvf] at hevmem

theorem claim_C1_witness :
    WEvent.createBranch (normalizeBranchName envMain.rawBranchLLM) ∈
      [WEvent.parseRules, WEvent.getStatus, WEvent.getCurrentBranch,
       WEvent.getAllDiff, WEvent.llmGenBranch,
       WEvent.createBranch "feature/ABC-123-login"] ∧
    (validateBranchName (normalizeBranchName envMain.rawBranchLLM)
        envMain.rules).valid = true ∧
    isProtectedBranch (normalizeBranchName envMain.rawBranchLLM) = false :=
  claim_C1_protected_branch_gate envMain (by decide)
    [WEvent.parseRules, WEvent.getStatus, WEvent.getCurrentBranch,
     WEvent.getAllDiff, WEvent.llmGenBranch,
     WEvent.createBranch "feature/ABC-123-login"]
    [WEvent.getStagedDiff, WEvent.llmGenCommit, WEvent.confirmCommitPrompt,
     WEvent.gitCommit "feat(ABC-123): add login", WEvent.pushTracked,
     WEvent.getRemote, WEvent.getProject, WEvent.listMRs, WEvent.useExistingMR,
     WEvent.fetchChanges 0, WEvent.reviewCall, WEvent.postNote,
     WEvent.workflowDone]
    WEvent.stageAll (by decide) (Or.inl rfl)

end GitlabAI
